import Mathlib

/-!
# Verification of the Papermind vector-math core

Shallow embedding of the vector-space algorithm library (cosine-similarity
kernel, kernel matrix builder, k-means, DBSCAN, clustering quality metrics,
SOM U-matrix) and proofs of the specified properties.

Modelling conventions:
* A vector is a `List ℚ` (the concrete inputs of the program are numeric
  literals; ideal rationals model them exactly).
* Real-valued results (square roots, similarity scores, metric indices)
  live in `ℝ`, with `Real.sqrt` standing for `Math.sqrt`.
* A JavaScript `throw` is modelled by `Except String`.
* Index loops that read two arrays in lockstep are rendered with `List.zip`;
  for equal-length inputs (the only case the callers produce) this is exact.
-/

namespace Papermind

/-- Sum of squares of the entries of a vector: the `normA`/`normB`
accumulator of `cosineSimilarityKernel` (and of `normalizeVector`). -/
def sumSq (v : List ℚ) : ℚ :=
  (v.map (fun x => x * x)).sum

/-- Dot product accumulator of `cosineSimilarityKernel`. -/
def dotProduct (a b : List ℚ) : ℚ :=
  ((a.zip b).map (fun p => p.1 * p.2)).sum

/-- Squared Euclidean distance: the `sum` accumulator of
`euclideanDistance` before the final `Math.sqrt`. -/
def sqDist (a b : List ℚ) : ℚ :=
  ((a.zip b).map (fun p => (p.1 - p.2) * (p.1 - p.2))).sum

/-- `euclideanDistance`: `Math.sqrt` of the accumulated sum of squared
coordinate differences. -/
noncomputable def euclideanDistance (a b : List ℚ) : ℝ :=
  Real.sqrt (sqDist a b)

/-- `cosineSimilarityKernel`: throws when the dimensionalities differ,
returns `0` when either norm accumulator is zero, otherwise the dot
product over the product of the Euclidean norms. -/
noncomputable def cosineSimilarityKernel (vecA vecB : List ℚ) :
    Except String ℝ :=
  if vecA.length ≠ vecB.length then
    .error "Vectors must have the same dimensionality"
  else if sumSq vecA = 0 ∨ sumSq vecB = 0 then
    .ok 0
  else
    .ok ((dotProduct vecA vecB : ℝ) /
      (Real.sqrt (sumSq vecA) * Real.sqrt (sumSq vecB)))

/-! ## Kernel matrix builder -/

/-- The value returned by a successful `cosineSimilarityKernel` call
(`0` in the unreachable error case). -/
noncomputable def cosValue (a b : List ℚ) : ℝ :=
  match cosineSimilarityKernel a b with
  | .ok r => r
  | .error _ => 0

/-- Matrix entry read `m[i][j]` (out-of-range reads default, which the
source never performs). -/
def entry (m : List (List ℝ)) (i j : ℕ) : ℝ :=
  (m.getD i []).getD j 0

/-- Matrix entry write `m[i][j] = v`. -/
def setEntry (m : List (List ℝ)) (i j : ℕ) (v : ℝ) : List (List ℝ) :=
  m.set i ((m.getD i []).set j v)

/-- Inner loop of `computeKernelMatrix`: for fixed row `i`, walk the
column indices `js = [i, …, n-1]`, writing `1.0` on the diagonal and the
cosine similarity at `(i,j)` and mirrored at `(j,i)` otherwise.  A
`throw` inside `cosineSimilarityKernel` aborts the whole computation. -/
noncomputable def kernelInner (vectors : List (List ℚ)) (i : ℕ) :
    List ℕ → List (List ℝ) → Except String (List (List ℝ))
  | [], m => .ok m
  | j :: js, m =>
      if i = j then
        kernelInner vectors i js (setEntry m i j 1)
      else
        match cosineSimilarityKernel (vectors.getD i []) (vectors.getD j []) with
        | .error e => .error e
        | .ok sim => kernelInner vectors i js (setEntry (setEntry m i j sim) j i sim)

/-- Outer loop of `computeKernelMatrix` over the row indices. -/
noncomputable def kernelOuter (vectors : List (List ℚ)) :
    List ℕ → List (List ℝ) → Except String (List (List ℝ))
  | [], m => .ok m
  | i :: is, m =>
      match kernelInner vectors i (List.range' i (vectors.length - i)) m with
      | .error e => .error e
      | .ok m' => kernelOuter vectors is m'

/-- `computeKernelMatrix`: starts from the `n × n` zero matrix and fills
the upper triangle (mirroring) with the diagonal fixed at `1.0`. -/
noncomputable def computeKernelMatrix (vectors : List (List ℚ)) :
    Except String (List (List ℝ)) :=
  kernelOuter vectors (List.range vectors.length)
    (List.replicate vectors.length (List.replicate vectors.length 0))

/-- An `n × n` matrix shape. -/
def Dims (m : List (List ℝ)) (n : ℕ) : Prop :=
  m.length = n ∧ ∀ r ∈ m, r.length = n

/-- The value `computeKernelMatrix` ends up writing at position
`(a, b)`: `1.0` on the diagonal, the cosine similarity elsewhere. -/
noncomputable def ktarget (vectors : List (List ℚ)) (a b : ℕ) : ℝ :=
  if a = b then 1 else cosValue (vectors.getD a []) (vectors.getD b [])

/-! ## K-means -/

/-- `addVectors`: elementwise sum (`a.map((val, i) => val + b[i])`);
rendered with `zip`, exact for the equal-length vectors the callers pass. -/
def addVectors (a b : List ℚ) : List ℚ :=
  (a.zip b).map (fun p => p.1 + p.2)

/-- `divideVector`: elementwise division by a scalar.  Every caller
guards the scalar to be a positive count, so the `ℚ`-division-by-zero
convention is never exercised. -/
def divideVector (a : List ℚ) (s : ℚ) : List ℚ :=
  a.map (fun v => v / s)

/-- The `minDist = ∞ / closestCluster = 0` scan of the assignment step.
The source compares Euclidean distances; since `Real.sqrt` is strictly
monotone on the nonnegative squared distances, comparing `sqDist` values
selects the identical index (`Real.sqrt_lt_sqrt_iff`), and keeps the
scan computable.  `none` models the `Infinity` initial best. -/
def argminAux (v : List ℚ) : List (List ℚ) → ℕ → ℕ → Option ℚ → ℕ
  | [], _, best, _ => best
  | c :: cs, idx, _, none => argminAux v cs (idx + 1) idx (some (sqDist v c))
  | c :: cs, idx, best, some m =>
      if sqDist v c < m then argminAux v cs (idx + 1) idx (some (sqDist v c))
      else argminAux v cs (idx + 1) best (some m)

/-- Index of the centroid closest to `v` (defaults to `0`, as the source
initializes `closestCluster = 0`). -/
def argminCentroid (centroids : List (List ℚ)) (v : List ℚ) : ℕ :=
  argminAux v centroids 0 0 none

/-- One assignment pass: each point's new label is the index of its
nearest centroid. -/
def assignPass (vectors : List (List ℚ)) (centroids : List (List ℚ)) : List ℤ :=
  vectors.map (fun v => (argminCentroid centroids v : ℤ))

/-- Centroid update step: for each cluster `c`, the mean of its members
(accumulated `newClusterSums[c] / newClusterCounts[c]`), or a reseed to a
random input vector if the cluster is empty.  `rs` is the stream of
`Math.random` draws used for reseeding, `t` the number of draws consumed. -/
def updateCentroids (vectors : List (List ℚ)) (asg : List ℤ) (k dim : ℕ)
    (rs : ℕ → ℕ) (t : ℕ) : List (List ℚ) × ℕ :=
  (List.range k).foldl (fun (acc : List (List ℚ) × ℕ) (c : ℕ) =>
    let members := ((vectors.zip asg).filter (fun p => decide (p.2 = (c : ℤ)))).map (·.1)
    if members.length > 0 then
      (acc.1 ++ [divideVector (members.foldl addVectors (List.replicate dim 0)) members.length], acc.2)
    else
      (acc.1 ++ [vectors.getD (rs acc.2 % vectors.length) []], acc.2 + 1))
    ([], t)

/-- The `while (changed && iterations < maxIterations)` loop.  `fuel` is
the remaining iteration budget; a pass recurses only when some
assignment changed, mirroring the `changed` flag. -/
def kMeansLoop (vectors : List (List ℚ)) (k dim : ℕ) (rs : ℕ → ℕ) :
    ℕ → List (List ℚ) → List ℤ → ℕ → List ℤ
  | 0, _, asg, _ => asg
  | fuel + 1, cents, asg, t =>
      let newAsg := assignPass vectors cents
      let upd := updateCentroids vectors newAsg k dim rs t
      if newAsg ≠ asg then kMeansLoop vectors k dim rs fuel upd.1 newAsg upd.2
      else newAsg

/-- `kMeans`.  The source draws random indices until `k` distinct ones
are collected to seed the centroids; the accepted draws are modelled by
the parameter `initIdxs`, and the reseed draws for empty clusters by the
stream `rs`.  Degenerate inputs are short-circuited before any
randomness is consumed. -/
def kMeans (vectors : List (List ℚ)) (k : ℕ) (maxIterations : ℕ)
    (initIdxs : List ℕ) (rs : ℕ → ℕ) : List ℤ :=
  if vectors.length = 0 then []
  else if k ≥ vectors.length then (List.range vectors.length).map (fun i => (i : ℤ))
  else
    let dim := (vectors.getD 0 []).length
    let centroids := initIdxs.map (fun i => vectors.getD i [])
    kMeansLoop vectors k dim rs maxIterations centroids
      (List.replicate vectors.length (-1)) 0

/-! ## DBSCAN -/

/-- Computable form of the neighborhood test
`euclideanDistance(a, b) <= epsilon`: since distances are nonnegative,
`√(sqDist a b) ≤ ε ↔ 0 ≤ ε ∧ sqDist a b ≤ ε²` (`Real.sqrt_le_iff`); the
equivalence is proved as `distLeB_iff` below. -/
def distLeB (a b : List ℚ) (eps : ℚ) : Bool :=
  decide (0 ≤ eps ∧ sqDist a b ≤ eps * eps)

/-- `getNeighbors`: all other indices within `epsilon` of `idx`. -/
def getNeighbors (vectors : List (List ℚ)) (eps : ℚ) (idx : ℕ) : List ℕ :=
  (List.range vectors.length).filter
    (fun i => decide (i ≠ idx) && distLeB (vectors.getD idx []) (vectors.getD i []) eps)

/-- Seed-set expansion of one DBSCAN cluster: `j` walks the growing
`seedSet`; a previously-noise point is promoted to a border point, an
already-clustered point is skipped, an unvisited point joins the cluster
and, when itself core, appends its not-yet-queued neighbors.  The seed
set holds distinct indices `< n`, so `fuel = n` covers every step of the
source loop. -/
def expandCluster (vectors : List (List ℚ)) (eps : ℚ) (minPts : ℕ) (cid : ℤ) :
    ℕ → List ℤ → List ℕ → ℕ → List ℤ
  | 0, labels, _, _ => labels
  | fuel + 1, labels, seedSet, j =>
      if j < seedSet.length then
        let nIdx := seedSet.getD j 0
        let labels1 := if labels.getD nIdx 0 = -1 then labels.set nIdx cid else labels
        if labels1.getD nIdx 0 ≠ 0 then
          expandCluster vectors eps minPts cid fuel labels1 seedSet (j + 1)
        else
          let labels2 := labels1.set nIdx cid
          let nn := getNeighbors vectors eps nIdx
          let seedSet' :=
            if nn.length + 1 ≥ minPts then
              seedSet ++ nn.filter (fun x => !(seedSet.contains x))
            else seedSet
          expandCluster vectors eps minPts cid fuel labels2 seedSet' (j + 1)
      else labels

/-- Outer DBSCAN loop over the point indices, threading the label array
(`0` = undefined, `-1` = noise, `≥ 1` = raw cluster id) and the cluster
counter. -/
def dbscanLoop (vectors : List (List ℚ)) (eps : ℚ) (minPts : ℕ) :
    List ℕ → List ℤ → ℤ → List ℤ × ℤ
  | [], labels, cid => (labels, cid)
  | i :: is, labels, cid =>
      if labels.getD i 0 ≠ 0 then dbscanLoop vectors eps minPts is labels cid
      else
        let nbs := getNeighbors vectors eps i
        if nbs.length + 1 < minPts then
          dbscanLoop vectors eps minPts is (labels.set i (-1)) cid
        else
          let labels' :=
            expandCluster vectors eps minPts (cid + 1) vectors.length
              (labels.set i (cid + 1)) nbs 0
          dbscanLoop vectors eps minPts is labels' (cid + 1)

/-- Raw DBSCAN result: 1-based labels plus the final cluster counter. -/
def dbscanRaw (vectors : List (List ℚ)) (eps : ℚ) (minPts : ℕ) : List ℤ × ℤ :=
  dbscanLoop vectors eps minPts (List.range vectors.length)
    (List.replicate vectors.length 0) 0

/-- `dbscan`: the raw labels normalized to zero-based cluster ids, noise
staying `-1`. -/
def dbscan (vectors : List (List ℚ)) (eps : ℚ) (minPts : ℕ) : List ℤ :=
  (dbscanRaw vectors eps minPts).1.map (fun l => if l = -1 then -1 else l - 1)

/-- The number of clusters DBSCAN produced (the final internal counter). -/
def dbscanNumClusters (vectors : List (List ℚ)) (eps : ℚ) (minPts : ℕ) : ℤ :=
  (dbscanRaw vectors eps minPts).2

/-! ## Clustering quality metrics

The source iterates over `vectors` while reading `labels[i]` alongside;
the embedding zips the two lists into a single list of
(vector, label) pairs and phrases each index over it, which is exact for
the equal-length inputs a label assignment provides. -/

/-- A (vector, label) pair list. -/
abbrev LabeledVectors := List (List ℚ × ℤ)

/-- The metrics bundle. -/
structure ClusteringMetrics where
  silhouetteScore : ℝ
  daviesBouldinIndex : ℝ
  calinskiHarabaszIndex : ℝ

/-- `Array.from(new Set(labels)).filter(l => l !== -1)`: the distinct
non-noise labels. -/
def uniqueClusters (labels : List ℤ) : List ℤ :=
  labels.dedup.filter (fun l => decide (l ≠ -1))

/-- The member vectors of cluster `c`. -/
def clusterMembers (pairs : LabeledVectors) (c : ℤ) : List (List ℚ) :=
  (pairs.filter (fun p => decide (p.2 = c))).map (·.1)

/-- `getClusterCentroids` for one cluster: the mean of its members,
accumulated from a zero vector of the ambient dimension. -/
def clusterCentroid (pairs : LabeledVectors) (c : ℤ) (dim : ℕ) : List ℚ :=
  divideVector ((clusterMembers pairs c).foldl addVectors (List.replicate dim 0))
    ((clusterMembers pairs c).length)

/-- Per-point silhouette contribution: `none` models the
`sameClusterCount === 0` skip.  `a` is the mean distance to same-cluster
points, `b` the minimum over other clusters of the mean distance to that
cluster (noise neighbors ignored throughout; `b = 0` when no other
cluster is represented, modelling the `Infinity → 0` fallback). -/
noncomputable def silhouettePoint (p : List ℚ) (c : ℤ) (others : LabeledVectors) :
    Option ℝ :=
  let valid := others.filter (fun q => decide (q.2 ≠ -1))
  let same := valid.filter (fun q => decide (q.2 = c))
  if same.length = 0 then none
  else
    let a := (same.map (fun q => euclideanDistance p q.1)).sum / same.length
    let otherLabels := (valid.map (·.2)).dedup.filter (fun l => decide (l ≠ c))
    let means := otherLabels.map (fun l =>
      let mem := valid.filter (fun q => decide (q.2 = l))
      (mem.map (fun q => euclideanDistance p q.1)).sum / mem.length)
    let b := match means with
      | [] => (0 : ℝ)
      | m :: ms => ms.foldl min m
    if max a b = 0 then some 0 else some ((b - a) / max a b)

/-- The silhouette accumulation loop: `done` are the pairs before the
current point, `todo` the current point and those after it; returns
(totalScore, validPoints). -/
noncomputable def silhouetteLoop : LabeledVectors → LabeledVectors → ℝ × ℕ
  | _, [] => (0, 0)
  | done, p :: todo =>
      let rest := silhouetteLoop (done ++ [p]) todo
      if p.2 = -1 then rest
      else
        match silhouettePoint p.1 p.2 (done ++ todo) with
        | none => rest
        | some s => (rest.1 + s, rest.2 + 1)

/-- Silhouette score over the zipped pairs. -/
noncomputable def silhouetteScoreCore (pairs : LabeledVectors) : ℝ :=
  let acc := silhouetteLoop [] pairs
  if acc.2 > 0 then acc.1 / acc.2 else 0

/-- `calculateSilhouetteScore`. -/
noncomputable def calculateSilhouetteScore (vectors : List (List ℚ))
    (labels : List ℤ) : ℝ :=
  if vectors.length < 2 then 0 else silhouetteScoreCore (vectors.zip labels)

/-- Cluster scatter: mean distance of members to their centroid. -/
noncomputable def scatter (pairs : LabeledVectors) (c : ℤ) (dim : ℕ) : ℝ :=
  ((clusterMembers pairs c).map
    (fun v => euclideanDistance v (clusterCentroid pairs c dim))).sum /
    ((clusterMembers pairs c).length)

/-- Davies-Bouldin index over the zipped pairs.  The
`distCentroids === 0` skip is phrased on the squared distance, which
vanishes exactly when the distance does (`Real.sqrt_eq_zero`). -/
noncomputable def daviesBouldinCore (pairs : LabeledVectors) : ℝ :=
  let uniq := uniqueClusters (pairs.map (·.2))
  if uniq.length < 2 then 0
  else
    let dim := (pairs.getD 0 ([], 0)).1.length
    let maxRs := uniq.map (fun i =>
      let Rs := (uniq.filter (fun j =>
          decide (j ≠ i) &&
          decide (sqDist (clusterCentroid pairs i dim) (clusterCentroid pairs j dim) ≠ 0))).map
        (fun j => (scatter pairs i dim + scatter pairs j dim) /
          euclideanDistance (clusterCentroid pairs i dim) (clusterCentroid pairs j dim))
      match Rs with
      | [] => (0 : ℝ)
      | r :: rs => rs.foldl max r)
    maxRs.sum / uniq.length

/-- `calculateDaviesBouldinIndex`. -/
noncomputable def calculateDaviesBouldinIndex (vectors : List (List ℚ))
    (labels : List ℤ) : ℝ :=
  daviesBouldinCore (vectors.zip labels)

/-- Calinski-Harabasz index over the zipped pairs.  Note the global
centroid averages every vector, noise included. -/
noncomputable def calinskiHarabaszCore (pairs : LabeledVectors) : ℝ :=
  let uniq := uniqueClusters (pairs.map (·.2))
  let N := (pairs.filter (fun p => decide (p.2 ≠ -1))).length
  let K := uniq.length
  if K < 2 ∨ N ≤ K then 0
  else
    let dim := (pairs.getD 0 ([], 0)).1.length
    let globalCentroid :=
      divideVector ((pairs.map (·.1)).foldl addVectors (List.replicate dim 0))
        pairs.length
    let SSB := (uniq.map (fun c =>
      let d := euclideanDistance (clusterCentroid pairs c dim) globalCentroid
      ((clusterMembers pairs c).length : ℝ) * (d * d))).sum
    let SSW := (uniq.map (fun c =>
      ((clusterMembers pairs c).map (fun v =>
        let d := euclideanDistance v (clusterCentroid pairs c dim)
        d * d)).sum)).sum
    if SSW = 0 then 0 else (SSB / (K - 1)) / (SSW / (N - K))

/-- `calculateCalinskiHarabaszIndex`. -/
noncomputable def calculateCalinskiHarabaszIndex (vectors : List (List ℚ))
    (labels : List ℤ) : ℝ :=
  calinskiHarabaszCore (vectors.zip labels)

/-- `calculateClusteringMetrics`. -/
noncomputable def calculateClusteringMetrics (vectors : List (List ℚ))
    (labels : List ℤ) : ClusteringMetrics :=
  { silhouetteScore := calculateSilhouetteScore vectors labels
    daviesBouldinIndex := calculateDaviesBouldinIndex vectors labels
    calinskiHarabaszIndex := calculateCalinskiHarabaszIndex vectors labels }

/-! ## Self-Organizing Map: U-matrix -/

namespace SOM

/-- Raw U-matrix value of cell `(x, y)`: the mean Euclidean distance to
the up/down/left/right neighbors that lie on the grid (`0` when the cell
has no neighbor, per the `count > 0` guard). -/
noncomputable def rawU (width height : ℕ) (weights : ℕ → ℕ → List ℚ)
    (x y : ℕ) : ℝ :=
  let ds := [((0 : ℤ), (-1 : ℤ)), (0, 1), (-1, 0), (1, 0)].filterMap (fun d =>
    let nx := (x : ℤ) + d.1
    let ny := (y : ℤ) + d.2
    if 0 ≤ nx ∧ nx < width ∧ 0 ≤ ny ∧ ny < height then
      some (euclideanDistance (weights x y) (weights nx.toNat ny.toNat))
    else none)
  if ds.length = 0 then 0 else ds.sum / ds.length

/-- The raw values in the scan order of the normalization pass. -/
noncomputable def rawUList (width height : ℕ) (weights : ℕ → ℕ → List ℚ) :
    List ℝ :=
  (List.range width).flatMap (fun x =>
    (List.range height).map (fun y => rawU width height weights x y))

/-- The `max` scan (initialized at `0`, as in the source). -/
noncomputable def rawMax (width height : ℕ) (weights : ℕ → ℕ → List ℚ) : ℝ :=
  (rawUList width height weights).foldl max 0

/-- The `min` scan.  The source initializes at `Infinity`, so on a
nonempty grid the fold equals the fold from the first raw value; on an
empty grid the value is never read (the normalization loop is empty). -/
noncomputable def rawMin (width height : ℕ) (weights : ℕ → ℕ → List ℚ) : ℝ :=
  match rawUList width height weights with
  | [] => 0
  | h :: t => t.foldl min h

/-- `getUMatrix`: the raw values min-max normalized,
`(u - min) / (max - min || 1)`. -/
noncomputable def getUMatrix (width height : ℕ) (weights : ℕ → ℕ → List ℚ) :
    List (List ℝ) :=
  let mn := rawMin width height weights
  let mx := rawMax width height weights
  let denom := if mx - mn = 0 then 1 else mx - mn
  (List.range width).map (fun x =>
    (List.range height).map (fun y =>
      (rawU width height weights x y - mn) / denom))

end SOM

/-! ## Lemmas and theorems -/

lemma sumSq_nonneg (v : List ℚ) : 0 ≤ sumSq v := by
  unfold sumSq
  induction v with
  | nil => simp
  | cons x xs ih =>
      simp only [List.map_cons, List.sum_cons]
      have : 0 ≤ x * x := mul_self_nonneg x
      linarith

lemma dotProduct_self (v : List ℚ) : dotProduct v v = sumSq v := by
  unfold dotProduct sumSq
  induction v with
  | nil => simp
  | cons x xs ih => simp [List.zip_cons_cons, ih]

lemma dotProduct_comm (a b : List ℚ) : dotProduct a b = dotProduct b a := by
  unfold dotProduct
  induction a generalizing b with
  | nil => cases b <;> simp
  | cons x xs ih =>
      cases b with
      | nil => simp
      | cons y ys => simp [List.zip_cons_cons, ih, mul_comm]

/-- The computable neighborhood test coincides with the source's
`euclideanDistance(a, b) <= epsilon`. -/
lemma distLeB_iff (a b : List ℚ) (eps : ℚ) :
    distLeB a b eps = true ↔ euclideanDistance a b ≤ (eps : ℝ) := by
  unfold distLeB euclideanDistance
  rw [decide_eq_true_iff, Real.sqrt_le_iff]
  constructor
  · rintro ⟨h0, hle⟩
    refine ⟨by exact_mod_cast h0, ?_⟩
    have : ((sqDist a b : ℚ) : ℝ) ≤ ((eps * eps : ℚ) : ℝ) := by exact_mod_cast hle
    calc ((sqDist a b : ℚ) : ℝ) ≤ ((eps * eps : ℚ) : ℝ) := this
      _ = (eps : ℝ) ^ 2 := by push_cast; ring
  · rintro ⟨h0, hle⟩
    refine ⟨by exact_mod_cast h0, ?_⟩
    have : ((sqDist a b : ℚ) : ℝ) ≤ ((eps * eps : ℚ) : ℝ) := by
      calc ((sqDist a b : ℚ) : ℝ) ≤ (eps : ℝ) ^ 2 := hle
        _ = ((eps * eps : ℚ) : ℝ) := by push_cast; ring
    exact_mod_cast this

/-- `cosineSimilarityKernel` is symmetric in its arguments. -/
lemma cosineSimilarityKernel_comm (a b : List ℚ) :
    cosineSimilarityKernel a b = cosineSimilarityKernel b a := by
  unfold cosineSimilarityKernel
  by_cases hlen : a.length = b.length
  · simp only [hlen, ne_eq, not_true_eq_false, if_false, ite_not]
    by_cases hz : sumSq a = 0 ∨ sumSq b = 0
    · simp [hz, hz.symm, or_comm.mp hz]
    · rw [or_comm] at hz
      simp only [hz, or_comm.mpr, if_neg]
      rw [dotProduct_comm, mul_comm]
      simp [or_comm.2, hz]
      intro h
      exact absurd (or_comm.mp h) hz
  · have hlen' : b.length ≠ a.length := fun h => hlen h.symm
    simp [hlen, hlen']

/-! ### C5: cosineSimilarity error behavior -/

/-- C5: `cosineSimilarityKernel` fails with an explicit error exactly
when the two vectors differ in length; for equal-length vectors it never
errors, and whenever either vector has zero norm it returns `0`. -/
theorem cosineSimilarityKernel_error_iff (a b : List ℚ) :
    ((∃ e, cosineSimilarityKernel a b = .error e) ↔ a.length ≠ b.length) ∧
    (a.length = b.length → (sumSq a = 0 ∨ sumSq b = 0) →
      cosineSimilarityKernel a b = .ok 0) := by
  unfold cosineSimilarityKernel
  by_cases hlen : a.length = b.length
  · simp only [hlen, ne_eq, not_true_eq_false, if_false]
    by_cases hz : sumSq a = 0 ∨ sumSq b = 0 <;> simp [hz]
  · simp [hlen]

/-- Witness for C5: a concrete length mismatch errors, and a concrete
zero-norm pair returns `0`. -/
theorem cosineSimilarityKernel_error_iff_witness :
    (∃ e, cosineSimilarityKernel [1] [1, 2] = .error e) ∧
    cosineSimilarityKernel [0, 0] [1, 2] = .ok 0 := by
  refine ⟨(cosineSimilarityKernel_error_iff [1] [1, 2]).1.mpr (by decide), ?_⟩
  exact (cosineSimilarityKernel_error_iff [0, 0] [1, 2]).2 (by decide)
    (Or.inl (by norm_num [sumSq]))

/-! ### C9: self-similarity is 1 -/

/-- C9: for every vector of nonzero norm,
`cosineSimilarity(v, v)` returns exactly `1`. -/
theorem cosineSimilarityKernel_self (v : List ℚ) (hv : sumSq v ≠ 0) :
    cosineSimilarityKernel v v = .ok 1 := by
  unfold cosineSimilarityKernel
  simp only [ne_eq, not_true_eq_false, if_false, hv, or_self, if_neg,
    not_false_eq_true, dotProduct_self]
  have hnn : (0 : ℝ) ≤ (sumSq v : ℝ) := by exact_mod_cast sumSq_nonneg v
  have hne : ((sumSq v : ℚ) : ℝ) ≠ 0 := by exact_mod_cast hv
  rw [Real.mul_self_sqrt hnn, div_self hne]

/-- Witness for C9 at `v = [3, 4]`. -/
theorem cosineSimilarityKernel_self_witness :
    cosineSimilarityKernel [3, 4] [3, 4] = .ok 1 :=
  cosineSimilarityKernel_self [3, 4] (by norm_num [sumSq])

/-! ### C2: k-means degenerate inputs -/

/-- C2: on an empty collection `kMeans` returns the empty assignment,
and when `k ≥ n` it returns the identity labeling without entering the
iterative loop (for any initialization and reseed draws). -/
theorem kMeans_degenerate (vectors : List (List ℚ)) (k maxIterations : ℕ)
    (initIdxs : List ℕ) (rs : ℕ → ℕ) :
    (vectors = [] → kMeans vectors k maxIterations initIdxs rs = []) ∧
    (k ≥ vectors.length →
      kMeans vectors k maxIterations initIdxs rs =
        (List.range vectors.length).map (fun i => (i : ℤ))) := by
  constructor
  · intro h; subst h; rfl
  · intro hk
    unfold kMeans
    by_cases h0 : vectors.length = 0
    · simp [h0, List.range_zero]
    · simp [h0, hk]

/-- Witness for C2: both branches at concrete inputs. -/
theorem kMeans_degenerate_witness :
    kMeans ([] : List (List ℚ)) 3 20 [] (fun _ => 0) = [] ∧
    kMeans [[0], [1]] 2 20 [0] (fun _ => 0) = [0, 1] := by
  constructor
  · exact (kMeans_degenerate [] 3 20 [] (fun _ => 0)).1 rfl
  · have h := (kMeans_degenerate [[0], [1]] 2 20 [0] (fun _ => 0)).2 (by decide)
    simpa using h

/-! ### C7: DBSCAN end-to-end scenario -/

set_option maxHeartbeats 8000000 in
/-- C7: on `[[1,0],[0.99,0.01],[0,1],[0.01,0.99]]` with `epsilon = 0.1`,
`minPts = 2`, DBSCAN yields exactly two clusters of size 2 — points 0,1
labeled `0` and points 2,3 labeled `1` — and no noise. -/
theorem dbscan_scenario :
    dbscan [[1, 0], [(0.99 : ℚ), 0.01], [0, 1], [0.01, 0.99]] (0.1) 2 =
      [0, 0, 1, 1] ∧
    dbscanNumClusters [[1, 0], [(0.99 : ℚ), 0.01], [0, 1], [0.01, 0.99]] (0.1) 2 = 2 := by
  constructor
  · norm_num [dbscan, dbscanRaw, dbscanLoop, expandCluster, getNeighbors,
      distLeB, sqDist, List.range, List.range.loop, List.replicate, List.set]
  · norm_num [dbscanNumClusters, dbscanRaw, dbscanLoop, expandCluster,
      getNeighbors, distLeB, sqDist, List.range, List.range.loop,
      List.replicate, List.set]

/-! ### C6: k-means output shape -/

lemma argminAux_some_lt (v : List ℚ) :
    ∀ (cs : List (List ℚ)) (idx best : ℕ) (m : ℚ), best < idx →
      argminAux v cs idx best (some m) < idx + cs.length := by
  intro cs
  induction cs with
  | nil => intro idx best m h; simpa [argminAux] using h
  | cons c cs ih =>
      intro idx best m h
      simp only [argminAux, List.length_cons]
      split
      · have := ih (idx + 1) idx (sqDist v c) (Nat.lt_succ_self idx)
        omega
      · have := ih (idx + 1) best m (h.trans (Nat.lt_succ_self idx))
        omega

lemma argminCentroid_lt (centroids : List (List ℚ)) (v : List ℚ)
    (h : centroids ≠ []) : argminCentroid centroids v < centroids.length := by
  cases centroids with
  | nil => exact absurd rfl h
  | cons c cs =>
      unfold argminCentroid
      simp only [argminAux]
      have := argminAux_some_lt v cs 1 0 (sqDist v c) Nat.one_pos
      simp only [List.length_cons, Nat.zero_add]
      omega

lemma foldl_one_length {α β γ : Type} (f : List α × γ → β → List α × γ)
    (hf : ∀ acc b, (f acc b).1.length = acc.1.length + 1) :
    ∀ (l : List β) (acc : List α × γ),
      ((l.foldl f acc).1.length = acc.1.length + l.length) := by
  intro l
  induction l with
  | nil => intro acc; simp
  | cons x xs ih =>
      intro acc
      simp only [List.foldl_cons, List.length_cons]
      rw [ih, hf]
      omega

lemma updateCentroids_fst_length (vectors : List (List ℚ)) (asg : List ℤ)
    (k dim : ℕ) (rs : ℕ → ℕ) (t : ℕ) :
    (updateCentroids vectors asg k dim rs t).1.length = k := by
  unfold updateCentroids
  have hf : ∀ (acc : List (List ℚ) × ℕ) (c : ℕ),
      ((fun (acc : List (List ℚ) × ℕ) (c : ℕ) =>
        let members := ((vectors.zip asg).filter (fun p => decide (p.2 = (c : ℤ)))).map (·.1)
        if members.length > 0 then
          (acc.1 ++ [divideVector (members.foldl addVectors (List.replicate dim 0)) members.length], acc.2)
        else
          (acc.1 ++ [vectors.getD (rs acc.2 % vectors.length) []], acc.2 + 1)) acc c).1.length
        = acc.1.length + 1 := by
    intro acc c
    simp only []
    split <;> simp
  have := foldl_one_length _ hf (List.range k) ([], t)
  simpa using this

lemma assignPass_props (vectors centroids : List (List ℚ)) (k : ℕ)
    (hlen : centroids.length = k) (hk : k ≠ 0) :
    (assignPass vectors centroids).length = vectors.length ∧
    ∀ l ∈ assignPass vectors centroids, 0 ≤ l ∧ l < (k : ℤ) := by
  constructor
  · simp [assignPass]
  · intro l hl
    simp only [assignPass, List.mem_map] at hl
    obtain ⟨v, _, rfl⟩ := hl
    have hne : centroids ≠ [] := by
      intro h; rw [h] at hlen; exact hk hlen.symm
    have := argminCentroid_lt centroids v hne
    rw [hlen] at this
    exact ⟨Int.ofNat_nonneg _, by exact_mod_cast this⟩

lemma kMeansLoop_props (vectors : List (List ℚ)) (k dim : ℕ) (rs : ℕ → ℕ)
    (hk : k ≠ 0) :
    ∀ (fuel : ℕ) (cents : List (List ℚ)) (asg : List ℤ) (t : ℕ),
      cents.length = k →
      (kMeansLoop vectors k dim rs (fuel + 1) cents asg t).length = vectors.length ∧
      ∀ l ∈ kMeansLoop vectors k dim rs (fuel + 1) cents asg t,
        0 ≤ l ∧ l < (k : ℤ) := by
  intro fuel
  induction fuel with
  | zero =>
      intro cents asg t hlen
      simp only [kMeansLoop]
      split
      · simpa [kMeansLoop] using assignPass_props vectors cents k hlen hk
      · exact assignPass_props vectors cents k hlen hk
  | succ fuel ih =>
      intro cents asg t hlen
      simp only [kMeansLoop]
      split
      · exact ih _ _ _ (updateCentroids_fst_length vectors _ k dim rs t)
      · exact assignPass_props vectors cents k hlen hk

/-- Counterexample to C6 as stated: with iteration bound `0` (one of the
"every iteration bound" cases) a valid run — `n = 2`, `k = 1` — returns
the untouched initial assignment `[-1, -1]`, whose entries do not lie in
`[0, k)`. -/
theorem kMeans_iterZero_counterexample :
    kMeans [[0], [1]] 1 0 [0] (fun _ => 0) = [-1, -1] ∧
    ¬ (∀ l ∈ kMeans [[0], [1]] 1 0 [0] (fun _ => 0), 0 ≤ l ∧ l < (1 : ℤ)) := by
  have h : kMeans [[0], [1]] 1 0 [0] (fun _ => 0) = [-1, -1] := by
    norm_num [kMeans, kMeansLoop, List.replicate]
  refine ⟨h, fun hall => ?_⟩
  have := hall (-1) (by rw [h]; simp)
  omega

/-- C6 (amended): for every non-empty collection, every `k` with
`1 ≤ k < n`, and every iteration bound of at least one, `kMeans` returns
one label per input vector with all values in `[0, k)` (the run is total,
so the embedding never raises).  The initialization draw list has length
`k`, as the source's sampling loop guarantees. -/
theorem kMeans_label_range (vectors : List (List ℚ)) (k maxIterations : ℕ)
    (initIdxs : List ℕ) (rs : ℕ → ℕ)
    (hk1 : 1 ≤ k) (hkn : k < vectors.length)
    (hinit : initIdxs.length = k) (hit : 1 ≤ maxIterations) :
    (kMeans vectors k maxIterations initIdxs rs).length = vectors.length ∧
    ∀ l ∈ kMeans vectors k maxIterations initIdxs rs,
      0 ≤ l ∧ l < (k : ℤ) := by
  have h0 : ¬ vectors.length = 0 := by omega
  have hge : ¬ k ≥ vectors.length := by omega
  unfold kMeans
  simp only [h0, hge, if_false]
  obtain ⟨fuel, rfl⟩ : ∃ fuel, maxIterations = fuel + 1 :=
    ⟨maxIterations - 1, by omega⟩
  exact kMeansLoop_props vectors k _ rs (by omega) fuel _ _ 0
    (by simp [hinit])

/-- Witness for the amended C6 at a concrete run. -/
theorem kMeans_label_range_witness :
    (kMeans [[0], [1]] 1 20 [0] (fun _ => 0)).length = 2 ∧
    ∀ l ∈ kMeans [[0], [1]] 1 20 [0] (fun _ => 0), 0 ≤ l ∧ l < (1 : ℤ) := by
  have h := kMeans_label_range [[0], [1]] 1 20 [0] (fun _ => 0)
    (by decide) (by decide) (by decide) (by decide)
  simpa using h

/-! ### C8: SOM U-matrix -/

lemma foldl_min_le_init : ∀ (l : List ℝ) (a : ℝ), l.foldl min a ≤ a := by
  intro l
  induction l with
  | nil => intro a; simp
  | cons x xs ih =>
      intro a
      simp only [List.foldl_cons]
      exact (ih (min a x)).trans (min_le_left a x)

lemma foldl_min_le_mem : ∀ (l : List ℝ) (a r : ℝ), r ∈ l → l.foldl min a ≤ r := by
  intro l
  induction l with
  | nil => intro a r h; simp at h
  | cons x xs ih =>
      intro a r h
      simp only [List.foldl_cons]
      rcases List.mem_cons.mp h with rfl | h
      · exact (foldl_min_le_init xs (min a r)).trans (min_le_right a r)
      · exact ih (min a x) r h

lemma le_foldl_max_init : ∀ (l : List ℝ) (a : ℝ), a ≤ l.foldl max a := by
  intro l
  induction l with
  | nil => intro a; simp
  | cons x xs ih =>
      intro a
      simp only [List.foldl_cons]
      exact (le_max_left a x).trans (ih (max a x))

lemma le_foldl_max_mem : ∀ (l : List ℝ) (a r : ℝ), r ∈ l → r ≤ l.foldl max a := by
  intro l
  induction l with
  | nil => intro a r h; simp at h
  | cons x xs ih =>
      intro a r h
      simp only [List.foldl_cons]
      rcases List.mem_cons.mp h with rfl | h
      · exact (le_max_right a r).trans (le_foldl_max_init xs (max a r))
      · exact ih (max a x) r h

lemma rawU_mem_rawUList (width height : ℕ) (weights : ℕ → ℕ → List ℚ)
    (x y : ℕ) (hx : x < width) (hy : y < height) :
    SOM.rawU width height weights x y ∈ SOM.rawUList width height weights := by
  unfold SOM.rawUList
  refine List.mem_flatMap.mpr ⟨x, List.mem_range.mpr hx, ?_⟩
  exact List.mem_map.mpr ⟨y, List.mem_range.mpr hy, rfl⟩

lemma rawMin_le_mem (width height : ℕ) (weights : ℕ → ℕ → List ℚ) (r : ℝ)
    (h : r ∈ SOM.rawUList width height weights) :
    SOM.rawMin width height weights ≤ r := by
  unfold SOM.rawMin
  cases hl : SOM.rawUList width height weights with
  | nil => rw [hl] at h; simp at h
  | cons hd t =>
      rw [hl] at h
      rcases List.mem_cons.mp h with rfl | h
      · exact foldl_min_le_init t r
      · exact foldl_min_le_mem t hd r h

lemma mem_le_rawMax (width height : ℕ) (weights : ℕ → ℕ → List ℚ) (r : ℝ)
    (h : r ∈ SOM.rawUList width height weights) :
    r ≤ SOM.rawMax width height weights :=
  le_foldl_max_mem _ 0 r h

/-- C8: for every grid state, `getUMatrix` is a `width × height` matrix;
each cell is the raw value — the mean Euclidean distance to the existing
4-neighbors (`SOM.rawU`) — min-max normalized; every value lies in
`[0, 1]`, and when the raw maximum equals the raw minimum every value
is `0`. -/
theorem getUMatrix_props (width height : ℕ) (weights : ℕ → ℕ → List ℚ)
    (x y : ℕ) (hx : x < width) (hy : y < height) :
    (SOM.getUMatrix width height weights).length = width ∧
    (∀ row ∈ SOM.getUMatrix width height weights, row.length = height) ∧
    entry (SOM.getUMatrix width height weights) x y =
      (SOM.rawU width height weights x y - SOM.rawMin width height weights) /
        (if SOM.rawMax width height weights - SOM.rawMin width height weights = 0
          then 1
          else SOM.rawMax width height weights - SOM.rawMin width height weights) ∧
    0 ≤ entry (SOM.getUMatrix width height weights) x y ∧
    entry (SOM.getUMatrix width height weights) x y ≤ 1 ∧
    (SOM.rawMax width height weights = SOM.rawMin width height weights →
      entry (SOM.getUMatrix width height weights) x y = 0) := by
  have hlen : (SOM.getUMatrix width height weights).length = width := by
    simp [SOM.getUMatrix]
  have hrow : ∀ row ∈ SOM.getUMatrix width height weights, row.length = height := by
    intro row hr
    simp only [SOM.getUMatrix, List.mem_map] at hr
    obtain ⟨a, _, rfl⟩ := hr
    simp
  have hentry : entry (SOM.getUMatrix width height weights) x y =
      (SOM.rawU width height weights x y - SOM.rawMin width height weights) /
        (if SOM.rawMax width height weights - SOM.rawMin width height weights = 0
          then 1
          else SOM.rawMax width height weights - SOM.rawMin width height weights) := by
    unfold entry SOM.getUMatrix
    have h1 : x < ((List.range width).map (fun x =>
        (List.range height).map (fun y =>
          (SOM.rawU width height weights x y - SOM.rawMin width height weights) /
            (if SOM.rawMax width height weights - SOM.rawMin width height weights = 0
              then 1
              else SOM.rawMax width height weights - SOM.rawMin width height weights)))).length := by
      simpa using hx
    rw [List.getD_eq_getElem _ _ h1]
    simp only [List.getElem_map, List.getElem_range]
    have h2 : y < ((List.range height).map (fun y =>
        (SOM.rawU width height weights x y - SOM.rawMin width height weights) /
          (if SOM.rawMax width height weights - SOM.rawMin width height weights = 0
            then 1
            else SOM.rawMax width height weights - SOM.rawMin width height weights))).length := by
      simpa using hy
    rw [List.getD_eq_getElem _ _ h2]
    simp only [List.getElem_map, List.getElem_range]
  have hmem := rawU_mem_rawUList width height weights x y hx hy
  have hlow := rawMin_le_mem width height weights _ hmem
  have hhigh := mem_le_rawMax width height weights _ hmem
  refine ⟨hlen, hrow, hentry, ?_, ?_, ?_⟩
  · rw [hentry]
    split
    · have heq : SOM.rawU width height weights x y = SOM.rawMin width height weights := by
        linarith
      simp [heq]
    · rename_i hne
      have hlt : 0 < SOM.rawMax width height weights - SOM.rawMin width height weights :=
        lt_of_le_of_ne (by linarith) (fun h => hne h.symm)
      exact div_nonneg (by linarith) hlt.le
  · rw [hentry]
    split
    · have heq : SOM.rawU width height weights x y = SOM.rawMin width height weights := by
        linarith
      simp [heq]
    · rename_i hne
      have hlt : 0 < SOM.rawMax width height weights - SOM.rawMin width height weights :=
        lt_of_le_of_ne (by linarith) (fun h => hne h.symm)
      rw [div_le_one hlt]
      linarith
  · intro hmx
    rw [hentry]
    have h0 : SOM.rawMax width height weights - SOM.rawMin width height weights = 0 := by
      rw [hmx]; ring
    have heq : SOM.rawU width height weights x y = SOM.rawMin width height weights := by
      have := hhigh
      rw [hmx] at this
      linarith
    simp [h0, heq]

/-- Witness for C8 on a concrete 2×1 grid. -/
theorem getUMatrix_props_witness :
    (SOM.getUMatrix 2 1 (fun _ _ => [0])).length = 2 ∧
    (∀ row ∈ SOM.getUMatrix 2 1 (fun _ _ => [0]), row.length = 1) ∧
    entry (SOM.getUMatrix 2 1 (fun _ _ => [0])) 0 0 =
      (SOM.rawU 2 1 (fun _ _ => [0]) 0 0 - SOM.rawMin 2 1 (fun _ _ => [0])) /
        (if SOM.rawMax 2 1 (fun _ _ => [0]) - SOM.rawMin 2 1 (fun _ _ => [0]) = 0
          then 1
          else SOM.rawMax 2 1 (fun _ _ => [0]) - SOM.rawMin 2 1 (fun _ _ => [0])) ∧
    0 ≤ entry (SOM.getUMatrix 2 1 (fun _ _ => [0])) 0 0 ∧
    entry (SOM.getUMatrix 2 1 (fun _ _ => [0])) 0 0 ≤ 1 ∧
    (SOM.rawMax 2 1 (fun _ _ => [0]) = SOM.rawMin 2 1 (fun _ _ => [0]) →
      entry (SOM.getUMatrix 2 1 (fun _ _ => [0])) 0 0 = 0) :=
  getUMatrix_props 2 1 (fun _ _ => [0]) 0 0 (by decide) (by decide)

/-! ### C1: kernel matrix shape, symmetry and diagonal -/

lemma getD_set_ne {α : Type} (l : List α) (j b : ℕ) (v d : α) (h : j ≠ b) :
    (l.set j v).getD b d = l.getD b d := by
  rcases lt_or_ge b l.length with hb | hb
  · rw [List.getD_eq_getElem _ _ (by simpa using hb), List.getD_eq_getElem _ _ hb,
      List.getElem_set_ne h]
  · rw [List.getD_eq_default _ _ (by simpa using hb), List.getD_eq_default _ _ hb]

lemma getD_row_length {m : List (List ℝ)} {n : ℕ} (h : Dims m n) {i : ℕ}
    (hi : i < n) : (m.getD i []).length = n := by
  obtain ⟨hl, hr⟩ := h
  rw [List.getD_eq_getElem _ _ (by omega)]
  exact hr _ (List.getElem_mem _)

lemma dims_setEntry {m : List (List ℝ)} {n : ℕ} (h : Dims m n) {i : ℕ}
    (hi : i < n) (j : ℕ) (v : ℝ) : Dims (setEntry m i j v) n := by
  obtain ⟨hl, hr⟩ := h
  refine ⟨by simp [setEntry, hl], ?_⟩
  intro r hrm
  rcases List.mem_or_eq_of_mem_set hrm with hm | rfl
  · exact hr r hm
  · rw [List.length_set]
    exact getD_row_length ⟨hl, hr⟩ hi

lemma entry_setEntry_self {m : List (List ℝ)} {n : ℕ} (h : Dims m n) {i j : ℕ}
    (hi : i < n) (hj : j < n) (v : ℝ) : entry (setEntry m i j v) i j = v := by
  unfold entry setEntry
  have h1 : i < (m.set i ((m.getD i []).set j v)).length := by
    simp [h.1]; omega
  rw [List.getD_eq_getElem _ _ h1, List.getElem_set_self]
  have h2 : j < ((m.getD i []).set j v).length := by
    rw [List.length_set, getD_row_length h hi]
    exact hj
  rw [List.getD_eq_getElem _ _ h2, List.getElem_set_self]

lemma entry_setEntry_ne (m : List (List ℝ)) (i j a b : ℕ) (v : ℝ)
    (h : ¬ (a = i ∧ b = j)) : entry (setEntry m i j v) a b = entry m a b := by
  unfold entry setEntry
  by_cases ha : a = i
  · subst ha
    have hb : j ≠ b := fun hh => h ⟨rfl, hh.symm⟩
    rcases lt_or_ge a m.length with him | him
    · have h1 : a < (m.set a ((m.getD a []).set j v)).length := by simpa using him
      rw [List.getD_eq_getElem _ _ h1, List.getElem_set_self]
      exact getD_set_ne _ _ _ _ _ hb
    · rw [List.set_eq_of_length_le him]
  · rw [getD_set_ne _ _ _ _ _ (fun hh => ha hh.symm)]

lemma cosineSimilarityKernel_ok (a b : List ℚ) (h : a.length = b.length) :
    cosineSimilarityKernel a b = .ok (cosValue a b) := by
  have hok : ∃ r, cosineSimilarityKernel a b = .ok r := by
    unfold cosineSimilarityKernel
    simp only [h, ne_eq, not_true_eq_false, if_false]
    by_cases hz : sumSq a = 0 ∨ sumSq b = 0 <;> simp [hz]
  obtain ⟨r, hr⟩ := hok
  rw [hr]
  unfold cosValue
  rw [hr]

lemma cosValue_comm (a b : List ℚ) : cosValue a b = cosValue b a := by
  unfold cosValue
  rw [cosineSimilarityKernel_comm]

lemma ktarget_comm (vectors : List (List ℚ)) (a b : ℕ) :
    ktarget vectors a b = ktarget vectors b a := by
  unfold ktarget
  by_cases hab : a = b
  · simp [hab]
  · rw [if_neg hab, if_neg (fun h => hab h.symm)]
    exact cosValue_comm _ _

lemma kernelInner_ok (vectors : List (List ℚ)) (d : ℕ)
    (hd : ∀ v ∈ vectors, v.length = d) (i : ℕ) (hi : i < vectors.length) :
    ∀ (js : List ℕ) (m : List (List ℝ)), js.Nodup →
      (∀ j ∈ js, j < vectors.length) → Dims m vectors.length →
      ∃ M, kernelInner vectors i js m = .ok M ∧ Dims M vectors.length ∧
        ∀ a b, entry M a b =
          if a = i ∧ b ∈ js ∨ b = i ∧ a ∈ js then ktarget vectors a b
          else entry m a b := by
  intro js
  induction js with
  | nil =>
      intro m _ _ hm
      exact ⟨m, rfl, hm, by simp⟩
  | cons j js ih =>
      intro m hnd hjs hm
      have hjlt : j < vectors.length := hjs j (List.mem_cons_self j js)
      have hjnotin : j ∉ js := (List.nodup_cons.mp hnd).1
      by_cases hij : i = j
      · subst hij
        have hm' : Dims (setEntry m i i 1) vectors.length :=
          dims_setEntry hm hi i 1
        obtain ⟨M, hM, hMd, hMe⟩ := ih (setEntry m i i 1)
          (List.nodup_cons.mp hnd).2 (fun x hx => hjs x (List.mem_cons_of_mem _ hx)) hm'
        refine ⟨M, ?_, hMd, ?_⟩
        · simpa [kernelInner] using hM
        · intro a b
          rw [hMe a b]
          by_cases hold : a = i ∧ b ∈ js ∨ b = i ∧ a ∈ js
          · rw [if_pos hold, if_pos]
            rcases hold with ⟨ha, hb⟩ | ⟨hb, ha⟩
            · exact Or.inl ⟨ha, List.mem_cons_of_mem _ hb⟩
            · exact Or.inr ⟨hb, List.mem_cons_of_mem _ ha⟩
          · rw [if_neg hold]
            by_cases hdiag : a = i ∧ b = i
            · obtain ⟨rfl, rfl⟩ := hdiag
              rw [entry_setEntry_self hm hi hi]
              rw [if_pos (Or.inl ⟨rfl, List.mem_cons_self _ _⟩)]
              simp [ktarget]
            · rw [entry_setEntry_ne m _ _ _ _ _ hdiag]
              rw [if_neg]
              intro hnew
              rcases hnew with ⟨ha, hb⟩ | ⟨hb, ha⟩
              · rcases List.mem_cons.mp hb with rfl | hbjs
                · exact hdiag ⟨ha, rfl⟩
                · exact hold (Or.inl ⟨ha, hbjs⟩)
              · rcases List.mem_cons.mp ha with rfl | hajs
                · exact hdiag ⟨rfl, hb⟩
                · exact hold (Or.inr ⟨hb, hajs⟩)
      · have hvl : (vectors.getD i []).length = (vectors.getD j []).length := by
          rw [List.getD_eq_getElem _ _ hi, List.getD_eq_getElem _ _ hjlt]
          rw [hd _ (List.getElem_mem _), hd _ (List.getElem_mem _)]
        have hcos := cosineSimilarityKernel_ok _ _ hvl
        set sim := cosValue (vectors.getD i []) (vectors.getD j []) with hsim
        have hm1 : Dims (setEntry m i j sim) vectors.length :=
          dims_setEntry hm hi j sim
        have hm2 : Dims (setEntry (setEntry m i j sim) j i sim) vectors.length :=
          dims_setEntry hm1 hjlt i sim
        obtain ⟨M, hM, hMd, hMe⟩ := ih (setEntry (setEntry m i j sim) j i sim)
          (List.nodup_cons.mp hnd).2 (fun x hx => hjs x (List.mem_cons_of_mem _ hx)) hm2
        refine ⟨M, ?_, hMd, ?_⟩
        · simp only [kernelInner, hij, if_false, hcos]
          exact hM
        · intro a b
          rw [hMe a b]
          by_cases hold : a = i ∧ b ∈ js ∨ b = i ∧ a ∈ js
          · rw [if_pos hold, if_pos]
            rcases hold with ⟨ha, hb⟩ | ⟨hb, ha⟩
            · exact Or.inl ⟨ha, List.mem_cons_of_mem _ hb⟩
            · exact Or.inr ⟨hb, List.mem_cons_of_mem _ ha⟩
          · rw [if_neg hold]
            by_cases hab1 : a = i ∧ b = j
            · rw [hab1.1, hab1.2]
              rw [entry_setEntry_ne (setEntry m i j sim) j i i j sim
                (fun hh => hij hh.1)]
              rw [entry_setEntry_self hm hi hjlt]
              rw [if_pos (Or.inl ⟨rfl, List.mem_cons_self _ _⟩)]
              simp only [ktarget, if_neg hij]
            · by_cases hab2 : a = j ∧ b = i
              · rw [hab2.1, hab2.2]
                rw [entry_setEntry_self hm1 hjlt hi]
                rw [if_pos (Or.inr ⟨rfl, List.mem_cons_self _ _⟩)]
                simp only [ktarget]
                rw [if_neg (fun h => hij h.symm), hsim]
                exact cosValue_comm _ _
              · rw [entry_setEntry_ne _ _ _ _ _ _ hab2,
                  entry_setEntry_ne _ _ _ _ _ _ hab1]
                rw [if_neg]
                intro hnew
                rcases hnew with ⟨ha, hb⟩ | ⟨hb, ha⟩
                · rcases List.mem_cons.mp hb with rfl | hbjs
                  · exact hab1 ⟨ha, rfl⟩
                  · exact hold (Or.inl ⟨ha, hbjs⟩)
                · rcases List.mem_cons.mp ha with rfl | hajs
                  · exact hab2 ⟨rfl, hb⟩
                  · exact hold (Or.inr ⟨hb, hajs⟩)

lemma kernelOuter_ok (vectors : List (List ℚ)) (d : ℕ)
    (hd : ∀ v ∈ vectors, v.length = d) :
    ∀ (is : List ℕ) (m : List (List ℝ)), (∀ i ∈ is, i < vectors.length) →
      Dims m vectors.length →
      ∃ M, kernelOuter vectors is m = .ok M ∧ Dims M vectors.length ∧
        ∀ a b, a < vectors.length → b < vectors.length →
          entry M a b =
            if min a b ∈ is then ktarget vectors a b else entry m a b := by
  intro is
  induction is with
  | nil =>
      intro m _ hm
      exact ⟨m, rfl, hm, by simp⟩
  | cons i is ih =>
      intro m his hm
      have hi : i < vectors.length := his i (List.mem_cons_self i is)
      obtain ⟨M1, hM1, hM1d, hM1e⟩ := kernelInner_ok vectors d hd i hi
        (List.range' i (vectors.length - i)) m (List.nodup_range' _ _)
        (fun j hj => by
          have := List.mem_range'_1.mp hj
          omega) hm
      obtain ⟨M, hM, hMd, hMe⟩ := ih M1
        (fun x hx => his x (List.mem_cons_of_mem _ hx)) hM1d
      refine ⟨M, ?_, hMd, ?_⟩
      · simp only [kernelOuter, hM1]
        exact hM
      · intro a b ha hb
        rw [hMe a b ha hb]
        by_cases hmin : min a b ∈ is
        · rw [if_pos hmin, if_pos (List.mem_cons_of_mem _ hmin)]
        · rw [if_neg hmin, hM1e a b]
          by_cases hmi : min a b = i
          · have hcond : a = i ∧ b ∈ List.range' i (vectors.length - i) ∨
                b = i ∧ a ∈ List.range' i (vectors.length - i) := by
              rcases min_cases a b with ⟨hab, hle⟩ | ⟨hab, hle⟩
              · exact Or.inl ⟨by omega,
                  List.mem_range'_1.mpr ⟨by omega, by omega⟩⟩
              · exact Or.inr ⟨by omega,
                  List.mem_range'_1.mpr ⟨by omega, by omega⟩⟩
            have hcc : min a b ∈ i :: is := by
              rw [hmi]; exact List.mem_cons_self _ _
            rw [if_pos hcond, if_pos hcc]
          · have hnc1 : ¬ (a = i ∧ b ∈ List.range' i (vectors.length - i) ∨
                b = i ∧ a ∈ List.range' i (vectors.length - i)) := by
              intro hcond
              rcases hcond with ⟨rfl, hbmem⟩ | ⟨rfl, hamem⟩
              · have := List.mem_range'_1.mp hbmem
                exact hmi (by omega)
              · have := List.mem_range'_1.mp hamem
                exact hmi (by omega)
            have hnc2 : min a b ∉ i :: is := by
              simp only [List.mem_cons]
              push_neg
              exact ⟨hmi, hmin⟩
            rw [if_neg hnc1, if_neg hnc2]

/-- C1: on a uniform-dimension vector collection, `computeKernelMatrix`
returns an `n × n` matrix with diagonal exactly `1.0`, symmetric
(`M[i][j] = M[j][i]`), whose off-diagonal entries are the cosine
similarity of the corresponding vectors (the upper-triangle value,
mirrored). -/
theorem computeKernelMatrix_props (vectors : List (List ℚ)) (d : ℕ)
    (hd : ∀ v ∈ vectors, v.length = d) :
    ∃ M, computeKernelMatrix vectors = .ok M ∧
      M.length = vectors.length ∧
      (∀ row ∈ M, row.length = vectors.length) ∧
      (∀ i, i < vectors.length → entry M i i = 1) ∧
      (∀ i j, i < vectors.length → j < vectors.length →
        entry M i j = entry M j i) ∧
      (∀ i j, i < vectors.length → j < vectors.length → i ≠ j →
        entry M i j = cosValue (vectors.getD i []) (vectors.getD j [])) := by
  have hm0 : Dims (List.replicate vectors.length (List.replicate vectors.length (0:ℝ)))
      vectors.length := by
    refine ⟨List.length_replicate _ _, ?_⟩
    intro r hr
    rw [(List.eq_of_mem_replicate hr : r = _)]
    exact List.length_replicate _ _
  obtain ⟨M, hM, hMd, hMe⟩ := kernelOuter_ok vectors d hd
    (List.range vectors.length)
    (List.replicate vectors.length (List.replicate vectors.length 0))
    (fun i hi => List.mem_range.mp hi) hm0
  refine ⟨M, hM, hMd.1, hMd.2, ?_, ?_, ?_⟩
  · intro i hi
    rw [hMe i i hi hi, if_pos (List.mem_range.mpr (by simpa using hi))]
    simp [ktarget]
  · intro i j hi hj
    rw [hMe i j hi hj, hMe j i hj hi]
    rw [if_pos (List.mem_range.mpr (by omega)), if_pos (List.mem_range.mpr (by omega))]
    exact ktarget_comm vectors i j
  · intro i j hi hj hij
    rw [hMe i j hi hj, if_pos (List.mem_range.mpr (by omega))]
    simp [ktarget, hij]

/-- Witness for C1 at the concrete collection `[[1,0],[0,1]]`. -/
theorem computeKernelMatrix_props_witness :
    ∃ M, computeKernelMatrix [[1, 0], [0, 1]] = .ok M ∧
      M.length = 2 ∧
      (∀ row ∈ M, row.length = 2) ∧
      (∀ i, i < 2 → entry M i i = 1) ∧
      (∀ i j, i < 2 → j < 2 → entry M i j = entry M j i) ∧
      (∀ i j, i < 2 → j < 2 → i ≠ j →
        entry M i j =
          cosValue ([[(1:ℚ), 0], [0, 1]].getD i []) ([[(1:ℚ), 0], [0, 1]].getD j [])) := by
  have h := computeKernelMatrix_props [[1, 0], [0, 1]] 2
    (by intro v hv; simp at hv; rcases hv with rfl | rfl <;> rfl)
  simpa using h

/-! ### C3: DBSCAN label structure -/

lemma getD_set_self {α : Type} (l : List α) (i : ℕ) (v d : α)
    (h : i < l.length) : (l.set i v).getD i d = v := by
  rw [List.getD_eq_getElem _ _ (by simpa using h), List.getElem_set_self]

lemma getD_replicate_zero (n p : ℕ) : (List.replicate n (0 : ℤ)).getD p 0 = 0 := by
  rcases lt_or_ge p n with h | h
  · rw [List.getD_eq_getElem _ _ (by simpa using h), List.getElem_replicate]
  · rw [List.getD_eq_default _ _ (by simpa using h)]

/-- One `labels[idx] = cid` write: every slot keeps its value or
becomes `cid`. -/
lemma write_disj (labels : List ℤ) (nIdx : ℕ) (cid : ℤ) (p : ℕ) :
    (labels.set nIdx cid).getD p 0 = labels.getD p 0 ∨
    (labels.set nIdx cid).getD p 0 = cid := by
  by_cases hpn : nIdx = p
  · subst hpn
    rcases lt_or_ge nIdx labels.length with hlt | hge
    · exact Or.inr (getD_set_self _ _ _ _ hlt)
    · exact Or.inl (by rw [List.set_eq_of_length_le hge])
  · exact Or.inl (getD_set_ne _ _ _ _ _ hpn)

/-- Composing two passes that each keep a slot or write `cid`, and never
touch positive slots. -/
lemma entries_compose {L L' R : List ℤ} (cid : ℤ)
    (h1 : ∀ p, (L'.getD p 0 = L.getD p 0 ∨ L'.getD p 0 = cid) ∧
      (1 ≤ L.getD p 0 → L'.getD p 0 = L.getD p 0))
    (h2 : ∀ p, (R.getD p 0 = L'.getD p 0 ∨ R.getD p 0 = cid) ∧
      (1 ≤ L'.getD p 0 → R.getD p 0 = L'.getD p 0)) :
    ∀ p, (R.getD p 0 = L.getD p 0 ∨ R.getD p 0 = cid) ∧
      (1 ≤ L.getD p 0 → R.getD p 0 = L.getD p 0) := by
  intro p
  rcases h1 p with ⟨hd1, hp1⟩
  rcases h2 p with ⟨hd2, hp2⟩
  constructor
  · rcases hd2 with h | h
    · rw [h]; exact hd1
    · exact Or.inr h
  · intro hpos
    have e1 := hp1 hpos
    have h1' : 1 ≤ L'.getD p 0 := by rw [e1]; exact hpos
    rw [hp2 h1', e1]

/-- A single write over a non-positive slot keeps positives and keeps or
`cid`-writes every slot. -/
lemma write_entries_of_nonpos (labels : List ℤ) (nIdx : ℕ) (cid : ℤ)
    (hnp : ¬ 1 ≤ labels.getD nIdx 0) :
    ∀ p, ((labels.set nIdx cid).getD p 0 = labels.getD p 0 ∨
        (labels.set nIdx cid).getD p 0 = cid) ∧
      (1 ≤ labels.getD p 0 → (labels.set nIdx cid).getD p 0 = labels.getD p 0) := by
  intro p
  refine ⟨write_disj labels nIdx cid p, ?_⟩
  intro hpos
  by_cases hpn : nIdx = p
  · subst hpn; exact absurd hpos hnp
  · exact getD_set_ne _ _ _ _ _ hpn

lemma entries_refl (L : List ℤ) (cid : ℤ) :
    ∀ p, (L.getD p 0 = L.getD p 0 ∨ L.getD p 0 = cid) ∧
      (1 ≤ L.getD p 0 → L.getD p 0 = L.getD p 0) :=
  fun _ => ⟨Or.inl rfl, fun _ => rfl⟩

lemma expandCluster_entries (vectors : List (List ℚ)) (eps : ℚ) (minPts : ℕ)
    (cid : ℤ) :
    ∀ (fuel : ℕ) (labels : List ℤ) (seedSet : List ℕ) (j : ℕ),
      (expandCluster vectors eps minPts cid fuel labels seedSet j).length
        = labels.length ∧
      ∀ p : ℕ,
        ((expandCluster vectors eps minPts cid fuel labels seedSet j).getD p 0
            = labels.getD p 0 ∨
          (expandCluster vectors eps minPts cid fuel labels seedSet j).getD p 0
            = cid) ∧
        (1 ≤ labels.getD p 0 →
          (expandCluster vectors eps minPts cid fuel labels seedSet j).getD p 0
            = labels.getD p 0) := by
  intro fuel
  induction fuel with
  | zero =>
      intro labels seedSet j
      exact ⟨by simp [expandCluster], fun p => (entries_refl labels cid p)⟩
  | succ fuel ih =>
      intro labels seedSet j
      by_cases hj : j < seedSet.length
      · set nIdx := seedSet.getD j 0 with hnIdx
        set labels1 := if labels.getD nIdx 0 = -1 then labels.set nIdx cid
          else labels with hlabels1
        have h1 : ∀ p, (labels1.getD p 0 = labels.getD p 0 ∨
            labels1.getD p 0 = cid) ∧
            (1 ≤ labels.getD p 0 → labels1.getD p 0 = labels.getD p 0) := by
          rw [hlabels1]
          by_cases hpr : labels.getD nIdx 0 = -1
          · rw [if_pos hpr]
            exact write_entries_of_nonpos labels nIdx cid (by omega)
          · rw [if_neg hpr]
            exact entries_refl labels cid
        by_cases hcont : labels1.getD nIdx 0 ≠ 0
        · have heq : expandCluster vectors eps minPts cid (fuel + 1) labels seedSet j
              = expandCluster vectors eps minPts cid fuel labels1 seedSet (j + 1) := by
            simp only [expandCluster, if_pos hj, ← hnIdx, ← hlabels1, if_pos hcont]
          rw [heq]
          obtain ⟨ihl, ihe⟩ := ih labels1 seedSet (j + 1)
          refine ⟨?_, entries_compose cid h1 ihe⟩
          rw [ihl, hlabels1]
          by_cases hpr : labels.getD nIdx 0 = -1
          · rw [if_pos hpr, List.length_set]
          · rw [if_neg hpr]
        · have hz : labels1.getD nIdx 0 = 0 := by
            push_neg at hcont; exact hcont
          have h2 : ∀ p, ((labels1.set nIdx cid).getD p 0 = labels1.getD p 0 ∨
              (labels1.set nIdx cid).getD p 0 = cid) ∧
              (1 ≤ labels1.getD p 0 →
                (labels1.set nIdx cid).getD p 0 = labels1.getD p 0) :=
            write_entries_of_nonpos labels1 nIdx cid (by omega)
          set seeds' := if (getNeighbors vectors eps nIdx).length + 1 ≥ minPts then
              seedSet ++ (getNeighbors vectors eps nIdx).filter
                (fun x => !(seedSet.contains x))
            else seedSet with hseeds
          have heq : expandCluster vectors eps minPts cid (fuel + 1) labels seedSet j
              = expandCluster vectors eps minPts cid fuel (labels1.set nIdx cid)
                seeds' (j + 1) := by
            simp only [expandCluster, if_pos hj, ← hnIdx, ← hlabels1, hz,
              ← hseeds]
            simp
          rw [heq]
          obtain ⟨ihl, ihe⟩ := ih (labels1.set nIdx cid) seeds' (j + 1)
          refine ⟨?_, entries_compose cid
            (entries_compose cid h1 h2) ihe⟩
          rw [ihl, List.length_set, hlabels1]
          by_cases hpr : labels.getD nIdx 0 = -1
          · rw [if_pos hpr, List.length_set]
          · rw [if_neg hpr]
      · have heq : expandCluster vectors eps minPts cid (fuel + 1) labels seedSet j
            = labels := by
          simp only [expandCluster, if_neg hj]
        rw [heq]
        exact ⟨rfl, entries_refl labels cid⟩

lemma dbscanLoop_invariants (vectors : List (List ℚ)) (eps : ℚ) (minPts : ℕ) :
    ∀ (is : List ℕ) (labels : List ℤ) (cid : ℤ), 0 ≤ cid →
      (∀ x ∈ is, x < labels.length) →
      (dbscanLoop vectors eps minPts is labels cid).1.length = labels.length ∧
      cid ≤ (dbscanLoop vectors eps minPts is labels cid).2 ∧
      (∀ p, 1 ≤ labels.getD p 0 →
        (dbscanLoop vectors eps minPts is labels cid).1.getD p 0
          = labels.getD p 0) ∧
      ((∀ p, labels.getD p 0 = -1 ∨
          0 ≤ labels.getD p 0 ∧ labels.getD p 0 ≤ cid) →
        ∀ p, (dbscanLoop vectors eps minPts is labels cid).1.getD p 0 = -1 ∨
          0 ≤ (dbscanLoop vectors eps minPts is labels cid).1.getD p 0 ∧
          (dbscanLoop vectors eps minPts is labels cid).1.getD p 0
            ≤ (dbscanLoop vectors eps minPts is labels cid).2) ∧
      (∀ c : ℤ, cid < c → c ≤ (dbscanLoop vectors eps minPts is labels cid).2 →
        ∃ p, (dbscanLoop vectors eps minPts is labels cid).1.getD p 0 = c) ∧
      (∀ p, labels.getD p 0 ≠ 0 →
        (dbscanLoop vectors eps minPts is labels cid).1.getD p 0 ≠ 0) ∧
      (∀ p, p ∈ is →
        (dbscanLoop vectors eps minPts is labels cid).1.getD p 0 ≠ 0) := by
  intro is
  induction is with
  | nil =>
      intro labels cid hcid his
      refine ⟨rfl, le_refl _, fun p _ => rfl, fun h => h, ?_, fun p h => h, ?_⟩
      · intro c hc1 hc2
        exact absurd (lt_of_lt_of_le hc1 hc2) (lt_irrefl _)
      · intro p hp
        simp at hp
  | cons i is ih =>
      intro labels cid hcid his
      have hi : i < labels.length := his i (List.mem_cons_self i is)
      have his' : ∀ x ∈ is, x < labels.length :=
        fun x hx => his x (List.mem_cons_of_mem _ hx)
      by_cases hio : labels.getD i 0 ≠ 0
      · have heq : dbscanLoop vectors eps minPts (i :: is) labels cid
            = dbscanLoop vectors eps minPts is labels cid := by
          simp only [dbscanLoop, if_pos hio]
        rw [heq]
        obtain ⟨ih1, ih2, ih3, ih4, ih5, ih6, ih7⟩ := ih labels cid hcid his'
        refine ⟨ih1, ih2, ih3, ih4, ih5, ih6, ?_⟩
        intro p hp
        rcases List.mem_cons.mp hp with rfl | hp
        · exact ih6 p hio
        · exact ih7 p hp
      · have hiz : labels.getD i 0 = 0 := by push_neg at hio; exact hio
        by_cases hnb : (getNeighbors vectors eps i).length + 1 < minPts
        · -- noise branch
          set L1 := labels.set i (-1) with hL1
          have heq : dbscanLoop vectors eps minPts (i :: is) labels cid
              = dbscanLoop vectors eps minPts is L1 cid := by
            simp only [dbscanLoop, if_neg hio, if_pos hnb, hL1]
          rw [heq]
          have hL1len : L1.length = labels.length := List.length_set _ _ _
          have hL1i : L1.getD i 0 = -1 := getD_set_self _ _ _ _ hi
          have hL1ne : ∀ p, p ≠ i → L1.getD p 0 = labels.getD p 0 :=
            fun p hp => getD_set_ne _ _ _ _ _ (fun h => hp h.symm)
          obtain ⟨ih1, ih2, ih3, ih4, ih5, ih6, ih7⟩ := ih L1 cid hcid
            (fun x hx => by rw [hL1len]; exact his' x hx)
          refine ⟨ih1.trans hL1len, ih2, ?_, ?_, ih5, ?_, ?_⟩
          · intro p hp
            have hpne : p ≠ i := fun h => by rw [h, hiz] at hp; omega
            rw [ih3 p (by rw [hL1ne p hpne]; exact hp), hL1ne p hpne]
          · intro hInv
            refine ih4 ?_
            intro p
            by_cases hpi : p = i
            · subst hpi; rw [hL1i]; exact Or.inl rfl
            · rw [hL1ne p hpi]; exact hInv p
          · intro p hp
            have hpne : p ≠ i := fun h => by rw [h, hiz] at hp; exact hp rfl
            exact ih6 p (by rw [hL1ne p hpne]; exact hp)
          · intro p hp
            rcases List.mem_cons.mp hp with rfl | hp
            · exact ih6 p (by rw [hL1i]; omega)
            · exact ih7 p hp
        · -- cluster branch
          set L1 := labels.set i (cid + 1) with hL1
          set L2 := expandCluster vectors eps minPts (cid + 1) vectors.length
            L1 (getNeighbors vectors eps i) 0 with hL2
          have heq : dbscanLoop vectors eps minPts (i :: is) labels cid
              = dbscanLoop vectors eps minPts is L2 (cid + 1) := by
            simp only [dbscanLoop, if_neg hio, if_neg hnb, hL2, hL1]
          rw [heq]
          obtain ⟨Elen, Ee⟩ := expandCluster_entries vectors eps minPts (cid + 1)
            vectors.length L1 (getNeighbors vectors eps i) 0
          have hL2len : L2.length = labels.length := by
            rw [hL2]; rw [Elen, hL1, List.length_set]
          have hL1i : L1.getD i 0 = cid + 1 := getD_set_self _ _ _ _ hi
          have hL1ne : ∀ p, p ≠ i → L1.getD p 0 = labels.getD p 0 :=
            fun p hp => getD_set_ne _ _ _ _ _ (fun h => hp h.symm)
          have hL2i : L2.getD i 0 = cid + 1 := by
            rw [hL2, (Ee i).2 (by rw [hL1i]; omega), hL1i]
          obtain ⟨ih1, ih2, ih3, ih4, ih5, ih6, ih7⟩ := ih L2 (cid + 1)
            (by omega) (fun x hx => by rw [hL2len]; exact his' x hx)
          have hpos : ∀ p, 1 ≤ labels.getD p 0 → L2.getD p 0 = labels.getD p 0 := by
            intro p hp
            have hpne : p ≠ i := fun h => by rw [h, hiz] at hp; omega
            rw [hL2, (Ee p).2 (by rw [hL1ne p hpne]; exact hp), hL1ne p hpne]
          refine ⟨ih1.trans hL2len, by omega, ?_, ?_, ?_, ?_, ?_⟩
          · intro p hp
            rw [ih3 p (by rw [hpos p hp]; exact hp), hpos p hp]
          · intro hInv
            refine ih4 ?_
            intro p
            have hL1inv : L1.getD p 0 = -1 ∨
                0 ≤ L1.getD p 0 ∧ L1.getD p 0 ≤ cid + 1 := by
              by_cases hpi : p = i
              · subst hpi; rw [hL1i]; right; omega
              · rw [hL1ne p hpi]
                rcases hInv p with h | h
                · exact Or.inl h
                · right; omega
            rcases (Ee p).1 with h | h
            · rw [hL2] at *; rw [h]; exact hL1inv
            · rw [hL2] at *; rw [h]; right; omega
          · intro c hc1 hc2
            by_cases hcle : c ≤ cid + 1
            · have hceq : c = cid + 1 := by omega
              refine ⟨i, ?_⟩
              rw [ih3 i (by rw [hL2i]; omega), hL2i, hceq]
            · exact ih5 c (by omega) hc2
          · intro p hp
            have hpne : p ≠ i := fun h => by rw [h, hiz] at hp; exact hp rfl
            refine ih6 p ?_
            rcases (Ee p).1 with h | h
            · rw [hL2] at *; rw [h, hL1ne p hpne]; exact hp
            · rw [hL2] at *; rw [h]; omega
          · intro p hp
            rcases List.mem_cons.mp hp with rfl | hp
            · exact ih6 p (by rw [hL2i]; omega)
            · exact ih7 p hp

/-- C3: every DBSCAN label is `-1` (noise) or a zero-based cluster id in
`[0, numClusters)`, and every id in that range occurs, so the
non-negative labels are exactly the contiguous range
`0 .. numClusters - 1`. -/
theorem dbscan_label_structure (vectors : List (List ℚ)) (eps : ℚ)
    (minPts : ℕ) :
    (dbscan vectors eps minPts).length = vectors.length ∧
    (∀ l ∈ dbscan vectors eps minPts,
      l = -1 ∨ 0 ≤ l ∧ l < dbscanNumClusters vectors eps minPts) ∧
    (∀ c : ℤ, 0 ≤ c → c < dbscanNumClusters vectors eps minPts →
      c ∈ dbscan vectors eps minPts) := by
  obtain ⟨h1, h2, h3, h4, h5, h6, h7⟩ := dbscanLoop_invariants vectors eps minPts
    (List.range vectors.length) (List.replicate vectors.length 0) 0 (le_refl 0)
    (fun x hx => by simpa using List.mem_range.mp hx)
  have hInv0 : ∀ p, (List.replicate vectors.length (0 : ℤ)).getD p 0 = -1 ∨
      0 ≤ (List.replicate vectors.length (0 : ℤ)).getD p 0 ∧
        (List.replicate vectors.length (0 : ℤ)).getD p 0 ≤ 0 := by
    intro p
    rw [getD_replicate_zero]
    right; omega
  have hInv := h4 hInv0
  have hrawlen : (dbscanRaw vectors eps minPts).1.length = vectors.length := by
    rw [dbscanRaw, h1, List.length_replicate]
  refine ⟨?_, ?_, ?_⟩
  · rw [dbscan, List.length_map, hrawlen]
  · intro l hl
    rw [dbscan] at hl
    obtain ⟨e, he, hfe⟩ := List.mem_map.mp hl
    obtain ⟨p, hp, hep⟩ := List.mem_iff_getElem.mp he
    have hegetD : (dbscanRaw vectors eps minPts).1.getD p 0 = e := by
      rw [List.getD_eq_getElem _ _ hp, hep]
    have hpn : p < vectors.length := by rw [← hrawlen]; exact hp
    have hz : (dbscanRaw vectors eps minPts).1.getD p 0 ≠ 0 :=
      h7 p (List.mem_range.mpr hpn)
    have hinvp : (dbscanRaw vectors eps minPts).1.getD p 0 = -1 ∨
        0 ≤ (dbscanRaw vectors eps minPts).1.getD p 0 ∧
          (dbscanRaw vectors eps minPts).1.getD p 0
            ≤ (dbscanRaw vectors eps minPts).2 := hInv p
    rw [hegetD] at hinvp hz
    rw [← hfe]
    rcases hinvp with hin | ⟨hin1, hin2⟩
    · rw [if_pos hin]; exact Or.inl rfl
    · rw [if_neg (by omega)]
      right
      have hC : dbscanNumClusters vectors eps minPts
          = (dbscanRaw vectors eps minPts).2 := rfl
      rw [hC]
      omega
  · intro c hc0 hcC
    have hcC' : c < (dbscanRaw vectors eps minPts).2 := hcC
    obtain ⟨p, hpc⟩ := h5 (c + 1) (by omega)
      (by
        have : (c : ℤ) + 1 ≤ (dbscanRaw vectors eps minPts).2 := by omega
        exact this)
    have hpc' : (dbscanRaw vectors eps minPts).1.getD p 0 = c + 1 := hpc
    have hplen : p < (dbscanRaw vectors eps minPts).1.length := by
      by_contra hge
      push_neg at hge
      rw [List.getD_eq_default _ _ hge] at hpc'
      omega
    rw [dbscan]
    refine List.mem_map.mpr ⟨c + 1, ?_, ?_⟩
    · rw [List.getD_eq_getElem _ _ hplen] at hpc'
      rw [← hpc']
      exact List.getElem_mem _
    · rw [if_neg (by omega)]
      omega

/-- Witness for C3 (its final conjunct has hypotheses) at a concrete
two-point input forming one cluster. -/
theorem dbscan_label_structure_witness :
    (0 : ℤ) ≤ 0 ∧
    (0 : ℤ) < dbscanNumClusters [[(0 : ℚ)], [0]] 1 1 ∧
    (0 : ℤ) ∈ dbscan [[(0 : ℚ)], [0]] 1 1 := by
  have hC : dbscanNumClusters [[(0 : ℚ)], [0]] 1 1 = 1 := by
    norm_num [dbscanNumClusters, dbscanRaw, dbscanLoop, expandCluster,
      getNeighbors, distLeB, sqDist, List.range, List.range.loop,
      List.replicate, List.set]
  have h := (dbscan_label_structure [[(0 : ℚ)], [0]] 1 1).2.2 0 (by omega)
    (by omega)
  exact ⟨by omega, by omega, h⟩

/-! ### C10: silhouette on a single cluster -/

lemma sqDist_nonneg (a b : List ℚ) : 0 ≤ sqDist a b := by
  unfold sqDist
  induction a generalizing b with
  | nil => simp
  | cons x xs ih =>
      cases b with
      | nil => simp
      | cons y ys =>
          simp only [List.zip_cons_cons, List.map_cons, List.sum_cons]
          have h1 : 0 ≤ (x - y) * (x - y) := mul_self_nonneg _
          have h2 := ih ys
          linarith

lemma sqDist_comm (a b : List ℚ) : sqDist a b = sqDist b a := by
  unfold sqDist
  induction a generalizing b with
  | nil => cases b <;> simp
  | cons x xs ih =>
      cases b with
      | nil => simp
      | cons y ys =>
          simp only [List.zip_cons_cons, List.map_cons, List.sum_cons, ih ys]
          ring_nf

lemma sqDist_pos_of_ne (a b : List ℚ) (hlen : a.length = b.length)
    (hne : a ≠ b) : 0 < sqDist a b := by
  induction a generalizing b with
  | nil =>
      cases b with
      | nil => exact absurd rfl hne
      | cons y ys => simp at hlen
  | cons x xs ih =>
      cases b with
      | nil => simp at hlen
      | cons y ys =>
          unfold sqDist
          simp only [List.zip_cons_cons, List.map_cons, List.sum_cons]
          by_cases hxy : x = y
          · subst hxy
            have hne' : xs ≠ ys := fun h => hne (by rw [h])
            have := ih ys (by simpa using hlen) hne'
            unfold sqDist at this
            simp only [sub_self, mul_zero, zero_mul]
            linarith
          · have h1 : 0 < (x - y) * (x - y) :=
              mul_pos_iff.mpr (by rcases lt_or_gt_of_ne (sub_ne_zero.mpr hxy) with h | h
                                  · exact Or.inr ⟨h, h⟩
                                  · exact Or.inl ⟨h, h⟩)
            have h2 : 0 ≤ (((xs.zip ys).map (fun p => (p.1 - p.2) * (p.1 - p.2))).sum) := by
              have := sqDist_nonneg xs ys
              unfold sqDist at this
              exact this
            linarith

lemma euclideanDistance_pos (a b : List ℚ) (h : 0 < sqDist a b) :
    0 < euclideanDistance a b := by
  unfold euclideanDistance
  rw [Real.sqrt_pos]
  exact_mod_cast h

lemma silhouettePoint_const (p : List ℚ) (c : ℤ) (others : LabeledVectors)
    (hc : c ≠ -1) (hne : others ≠ [])
    (hlab : ∀ q ∈ others, q.2 = c)
    (hdist : ∀ q ∈ others, 0 < sqDist p q.1) :
    silhouettePoint p c others = some (-1) := by
  have hvalid : others.filter (fun q => decide (q.2 ≠ -1)) = others :=
    List.filter_eq_self.mpr (fun q hq => by simp [hlab q hq, hc])
  have hsame : others.filter (fun q => decide (q.2 = c)) = others :=
    List.filter_eq_self.mpr (fun q hq => by simp [hlab q hq])
  unfold silhouettePoint
  dsimp only
  rw [hvalid, hsame]
  have hlen : others.length ≠ 0 := fun h => hne (List.length_eq_zero.mp h)
  rw [if_neg hlen]
  have hOL : ((others.map (fun q => q.2)).dedup.filter
      (fun l => decide (l ≠ c))) = [] := by
    rw [List.filter_eq_nil_iff]
    intro x hx
    obtain ⟨q, hq, rfl⟩ := List.mem_map.mp (List.mem_dedup.mp hx)
    simp [hlab q hq]
  rw [hOL]
  simp only [List.map_nil]
  have hsum : 0 < (others.map (fun q => euclideanDistance p q.1)).sum := by
    refine List.sum_pos _ ?_ (by simpa using hne)
    intro x hx
    obtain ⟨q, hq, rfl⟩ := List.mem_map.mp hx
    exact euclideanDistance_pos _ _ (hdist q hq)
  have hlenpos : 0 < (others.length : ℝ) := by
    have : 0 < others.length := Nat.pos_of_ne_zero hlen
    exact_mod_cast this
  set a := (others.map (fun q => euclideanDistance p q.1)).sum / others.length
    with ha
  have hapos : 0 < a := div_pos hsum hlenpos
  have hmax : max a 0 = a := max_eq_left hapos.le
  rw [hmax, if_neg hapos.ne']
  congr 1
  rw [zero_sub, neg_div, div_self hapos.ne']

lemma silhouetteLoop_const (c : ℤ) (hc : c ≠ -1) :
    ∀ (todo done : LabeledVectors),
      2 ≤ (done ++ todo).length →
      (∀ q ∈ done ++ todo, q.2 = c) →
      List.Pairwise (fun p q => 0 < sqDist p.1 q.1) (done ++ todo) →
      silhouetteLoop done todo = (-(todo.length : ℝ), todo.length) := by
  intro todo
  induction todo with
  | nil =>
      intro done _ _ _
      simp [silhouetteLoop]
  | cons p todo ih =>
      intro done h2 hlab hpw
      have hp2 : p.2 = c :=
        hlab p (List.mem_append_right _ (List.mem_cons_self _ _))
      have hothers : done ++ todo ≠ [] := by
        intro h
        have := congrArg List.length h
        simp only [List.length_append, List.length_nil] at this
        have hlen2 := h2
        simp only [List.length_append, List.length_cons] at hlen2
        omega
      have hlabO : ∀ q ∈ done ++ todo, q.2 = c := by
        intro q hq
        rcases List.mem_append.mp hq with h | h
        · exact hlab q (List.mem_append_left _ h)
        · exact hlab q (List.mem_append_right _ (List.mem_cons_of_mem _ h))
      obtain ⟨pwDone, pwCons, hcross⟩ := List.pairwise_append.mp hpw
      obtain ⟨hpTodo, pwTodo⟩ := List.pairwise_cons.mp pwCons
      have hdistO : ∀ q ∈ done ++ todo, 0 < sqDist p.1 q.1 := by
        intro q hq
        rcases List.mem_append.mp hq with h | h
        · have := hcross q h p (List.mem_cons_self _ _)
          rw [sqDist_comm]
          exact this
        · exact hpTodo q h
      have hpoint := silhouettePoint_const p.1 c (done ++ todo) hc hothers
        hlabO hdistO
      have hassoc : (done ++ [p]) ++ todo = done ++ p :: todo := by
        rw [List.append_assoc]
        rfl
      have hrest := ih (done ++ [p])
        (by rw [hassoc]; exact h2)
        (by rw [hassoc]; exact hlab)
        (by rw [hassoc]; exact hpw)
      simp only [silhouetteLoop, hrest, hp2, if_neg hc, hpoint,
        List.length_cons, Prod.mk.injEq]
      refine ⟨?_, trivial⟩
      push_cast
      ring

/-- C10: on a collection of at least two pairwise-distinct
uniform-dimension vectors all carrying the same non-noise label,
`calculateClusteringMetrics` reports a silhouette score of exactly `-1`
(with no other cluster, `b(i) = 0` and each point contributes
`(0 - a)/a = -1`). -/
theorem single_cluster_silhouette (vs : List (List ℚ)) (d : ℕ) (c : ℤ)
    (hlen : 2 ≤ vs.length) (hc : c ≠ -1)
    (hd : ∀ v ∈ vs, v.length = d)
    (hdistinct : List.Pairwise (fun v w => v ≠ w) vs) :
    (calculateClusteringMetrics vs
      (List.replicate vs.length c)).silhouetteScore = -1 := by
  have hzip : vs.zip (List.replicate vs.length c) = vs.map (fun v => (v, c)) := by
    clear hd hdistinct hlen
    induction vs with
    | nil => rfl
    | cons v vs ih =>
        simp only [List.length_cons, List.replicate_succ, List.zip_cons_cons,
          List.map_cons]
        rw [ih]
  have hpw : List.Pairwise (fun (p q : List ℚ × ℤ) => 0 < sqDist p.1 q.1)
      (vs.map (fun v => (v, c))) := by
    rw [List.pairwise_map]
    refine List.Pairwise.imp_of_mem ?_ hdistinct
    intro v w hv hw hne
    exact sqDist_pos_of_ne v w ((hd v hv).trans (hd w hw).symm) hne
  have hlab : ∀ q ∈ vs.map (fun v => (v, c)), q.2 = c := by
    intro q hq
    obtain ⟨v, _, rfl⟩ := List.mem_map.mp hq
    rfl
  have hloop := silhouetteLoop_const c hc (vs.map (fun v => (v, c))) []
    (by simpa using hlen) (by simp only [List.nil_append]; exact hlab)
    (by simp only [List.nil_append]; exact hpw)
  show calculateSilhouetteScore vs (List.replicate vs.length c) = -1
  unfold calculateSilhouetteScore
  rw [if_neg (by omega)]
  unfold silhouetteScoreCore
  rw [hzip, hloop]
  simp only [List.length_map]
  rw [if_pos (by omega)]
  have hn : (0 : ℝ) < (vs.length : ℝ) := by
    have : 0 < vs.length := by omega
    exact_mod_cast this
  rw [neg_div, div_self hn.ne']

/-- Witness for C10 at `[[0], [1]]`, both labeled `0`. -/
theorem single_cluster_silhouette_witness :
    (calculateClusteringMetrics [[(0 : ℚ)], [1]]
      (List.replicate ([[(0 : ℚ)], [1]]).length 0)).silhouetteScore = -1 :=
  single_cluster_silhouette [[(0 : ℚ)], [1]] 1 0 (by decide) (by decide)
    (by intro v hv; simp at hv; rcases hv with rfl | rfl <;> rfl)
    (by norm_num [List.pairwise_cons])

/-! ### C4: noise exclusion in the quality metrics -/

/-- `dedup` commutes with `filter`. -/
lemma dedup_filter {α : Type} [DecidableEq α] (p : α → Bool) :
    ∀ l : List α, (l.filter p).dedup = l.dedup.filter p := by
  intro l
  induction l with
  | nil => simp
  | cons a l ih =>
      by_cases hpa : p a
      · rw [List.filter_cons_of_pos hpa]
        by_cases hal : a ∈ l
        · rw [List.dedup_cons_of_mem (List.mem_filter.mpr ⟨hal, hpa⟩),
            List.dedup_cons_of_mem hal, ih]
        · have : a ∉ l.filter p := fun h => hal (List.mem_filter.mp h).1
          rw [List.dedup_cons_of_not_mem this, List.dedup_cons_of_not_mem hal,
            List.filter_cons_of_pos hpa, ih]
      · rw [List.filter_cons_of_neg hpa]
        by_cases hal : a ∈ l
        · rw [List.dedup_cons_of_mem hal, ih]
        · rw [List.dedup_cons_of_not_mem hal, List.filter_cons_of_neg hpa, ih]

/-- The non-noise pairs carry the non-noise labels. -/
lemma filter_pairs_map_snd (pairs : LabeledVectors) :
    (pairs.filter (fun p => decide (p.2 ≠ -1))).map (fun p => p.2)
      = (pairs.map (fun p => p.2)).filter (fun l => decide (l ≠ -1)) := by
  rw [List.filter_map]
  rfl

lemma uniqueClusters_filter (pairs : LabeledVectors) :
    uniqueClusters ((pairs.filter (fun p => decide (p.2 ≠ -1))).map (fun p => p.2))
      = uniqueClusters (pairs.map (fun p => p.2)) := by
  unfold uniqueClusters
  rw [filter_pairs_map_snd, dedup_filter, List.filter_filter]
  exact List.filter_congr (fun a _ => by simp)

lemma mem_uniqueClusters_ne (labels : List ℤ) (c : ℤ)
    (h : c ∈ uniqueClusters labels) : c ≠ -1 := by
  unfold uniqueClusters at h
  have := List.mem_filter.mp h
  simpa using this.2

lemma clusterMembers_filter (pairs : LabeledVectors) (c : ℤ) (hc : c ≠ -1) :
    clusterMembers (pairs.filter (fun p => decide (p.2 ≠ -1))) c
      = clusterMembers pairs c := by
  unfold clusterMembers
  rw [List.filter_filter]
  congr 1
  exact List.filter_congr (fun q _ => by
    by_cases hq : q.2 = c <;> simp [hq, hc])

/-- `silhouettePoint` only looks at the non-noise neighbors. -/
lemma silhouettePoint_filter (p : List ℚ) (c : ℤ) (others : LabeledVectors) :
    silhouettePoint p c (others.filter (fun q => decide (q.2 ≠ -1)))
      = silhouettePoint p c others := by
  unfold silhouettePoint
  rw [List.filter_filter]
  have : (others.filter (fun q => decide (q.2 ≠ -1) && decide (q.2 ≠ -1)))
      = others.filter (fun q => decide (q.2 ≠ -1)) :=
    List.filter_congr (fun q _ => by by_cases hq : q.2 = -1 <;> simp [hq])
  rw [this]

/-- The silhouette loop is blind to noise pairs. -/
lemma silhouetteLoop_filter :
    ∀ (todo done : LabeledVectors),
      silhouetteLoop (done.filter (fun q => decide (q.2 ≠ -1)))
        (todo.filter (fun q => decide (q.2 ≠ -1)))
      = silhouetteLoop done todo := by
  intro todo
  induction todo with
  | nil => intro done; simp [silhouetteLoop]
  | cons p todo ih =>
      intro done
      have hfap : (done ++ [p]).filter (fun q => decide (q.2 ≠ -1))
          = done.filter (fun q => decide (q.2 ≠ -1))
            ++ [p].filter (fun q => decide (q.2 ≠ -1)) := List.filter_append _ _
      by_cases hp : p.2 = -1
      · have hf : (p :: todo).filter (fun q => decide (q.2 ≠ -1))
            = todo.filter (fun q => decide (q.2 ≠ -1)) := by
          rw [List.filter_cons_of_neg (by simp [hp])]
        rw [hf]
        have hstep : silhouetteLoop done (p :: todo)
            = silhouetteLoop (done ++ [p]) todo := by
          simp only [silhouetteLoop, if_pos hp]
        rw [hstep, ← ih (done ++ [p]), hfap,
          List.filter_cons_of_neg (by simp [hp]), List.filter_nil,
          List.append_nil]
      · have hf : (p :: todo).filter (fun q => decide (q.2 ≠ -1))
            = p :: todo.filter (fun q => decide (q.2 ≠ -1)) := by
          rw [List.filter_cons_of_pos (by simp [hp])]
        rw [hf]
        have hrest : silhouetteLoop
            (done.filter (fun q => decide (q.2 ≠ -1)) ++ [p])
            (todo.filter (fun q => decide (q.2 ≠ -1)))
            = silhouetteLoop (done ++ [p]) todo := by
          rw [← ih (done ++ [p]), hfap,
            List.filter_cons_of_pos (by simp [hp]), List.filter_nil]
        have hpoint : silhouettePoint p.1 p.2
            (done.filter (fun q => decide (q.2 ≠ -1))
              ++ todo.filter (fun q => decide (q.2 ≠ -1)))
            = silhouettePoint p.1 p.2 (done ++ todo) := by
          rw [← List.filter_append]
          exact silhouettePoint_filter _ _ _
        simp only [silhouetteLoop, hrest, hpoint]

/-- With at most one non-noise pair, nothing is scored. -/
lemma silhouetteLoop_degenerate :
    ∀ (todo done : LabeledVectors),
      ((done ++ todo).filter (fun q => decide (q.2 ≠ -1))).length ≤ 1 →
      silhouetteLoop done todo = (0, 0) := by
  intro todo
  induction todo with
  | nil => intro done _; rfl
  | cons p todo ih =>
      intro done hlen
      have hassoc : (done ++ [p]) ++ todo = done ++ p :: todo := by
        rw [List.append_assoc]; rfl
      have hrest : silhouetteLoop (done ++ [p]) todo = (0, 0) := by
        refine ih (done ++ [p]) ?_
        rw [hassoc]
        exact hlen
      by_cases hp : p.2 = -1
      · simp only [silhouetteLoop, if_pos hp, hrest]
      · have hmem : ((done ++ p :: todo).filter
            (fun q => decide (q.2 ≠ -1))).length
            = ((done ++ todo).filter (fun q => decide (q.2 ≠ -1))).length + 1 := by
          rw [List.filter_append, List.filter_cons_of_pos (by simp [hp]),
            List.filter_append]
          simp
          omega
        have hothers : ((done ++ todo).filter (fun q => decide (q.2 ≠ -1))).length = 0 := by
          omega
        have hpoint : silhouettePoint p.1 p.2 (done ++ todo) = none := by
          rw [← silhouettePoint_filter]
          unfold silhouettePoint
          rw [List.length_eq_zero] at hothers
          rw [hothers]
          simp
        simp only [silhouetteLoop, if_neg hp, hpoint, hrest]

lemma silhouetteScoreCore_filter (pairs : LabeledVectors) :
    silhouetteScoreCore (pairs.filter (fun q => decide (q.2 ≠ -1)))
      = silhouetteScoreCore pairs := by
  unfold silhouetteScoreCore
  have h := silhouetteLoop_filter pairs []
  simp only [List.filter_nil] at h
  rw [h]

/-- Removing the noise-labeled vectors leaves the silhouette score
unchanged. -/
lemma calculateSilhouetteScore_filter (vectors : List (List ℚ))
    (labels : List ℤ) :
    calculateSilhouetteScore
      ((vectors.zip labels).filter (fun p => decide (p.2 ≠ -1))).unzip.1
      ((vectors.zip labels).filter (fun p => decide (p.2 ≠ -1))).unzip.2
      = calculateSilhouetteScore vectors labels := by
  set pairs := vectors.zip labels with hpairs
  set fp := pairs.filter (fun p => decide (p.2 ≠ -1)) with hfp
  have hzipu : fp.unzip.1.zip fp.unzip.2 = fp := List.zip_unzip fp
  have hlu : fp.unzip.1.length = fp.length := by
    rw [List.unzip_fst, List.length_map]
  have hfple : fp.length ≤ pairs.length := List.length_filter_le _ _
  have hple : pairs.length ≤ vectors.length := by
    rw [hpairs, List.length_zip]
    omega
  unfold calculateSilhouetteScore
  by_cases h2 : fp.unzip.1.length < 2
  · rw [if_pos h2]
    by_cases hv2 : vectors.length < 2
    · rw [if_pos hv2]
    · rw [if_neg hv2]
      have hfl : (pairs.filter (fun q => decide (q.2 ≠ -1))).length ≤ 1 := by
        rw [← hfp]
        omega
      unfold silhouetteScoreCore
      rw [← hpairs]
      rw [silhouetteLoop_degenerate pairs [] (by simpa using hfl)]
      simp
  · rw [if_neg h2]
    have hv2 : ¬ vectors.length < 2 := by omega
    rw [if_neg hv2, hzipu, hfp]
    exact silhouetteScoreCore_filter pairs

/-- Removing the noise-labeled vectors leaves the Davies-Bouldin index
unchanged (on a uniform-dimension collection). -/
lemma daviesBouldinCore_filter (pairs : LabeledVectors) (d : ℕ)
    (hdim : ∀ q ∈ pairs, q.1.length = d) :
    daviesBouldinCore (pairs.filter (fun p => decide (p.2 ≠ -1)))
      = daviesBouldinCore pairs := by
  set fp := pairs.filter (fun p => decide (p.2 ≠ -1)) with hfp
  have huc : uniqueClusters (fp.map (fun p => p.2))
      = uniqueClusters (pairs.map (fun p => p.2)) := by
    rw [hfp]; exact uniqueClusters_filter pairs
  unfold daviesBouldinCore
  dsimp only
  rw [huc]
  set uniq := uniqueClusters (pairs.map (fun p => p.2)) with huniq
  by_cases hU : uniq.length < 2
  · rw [if_pos hU, if_pos hU]
  · rw [if_neg hU, if_neg hU]
    have hmemne : ∀ c ∈ uniq, c ≠ -1 := by
      intro c hc
      exact mem_uniqueClusters_ne _ c hc
    have hne : uniq ≠ [] := by
      intro h; rw [h] at hU; simp at hU
    obtain ⟨c0, hc0⟩ : ∃ c, c ∈ uniq := List.exists_mem_of_ne_nil uniq hne
    obtain ⟨q0, hq0, hq0c⟩ : ∃ q ∈ pairs, q.2 = c0 := by
      have : c0 ∈ pairs.map (fun p => p.2) := by
        have h1 : c0 ∈ (pairs.map (fun p => p.2)).dedup.filter
            (fun l => decide (l ≠ -1)) := hc0
        exact List.mem_dedup.mp (List.mem_filter.mp h1).1
      obtain ⟨q, hq, hqc⟩ := List.mem_map.mp this
      exact ⟨q, hq, hqc⟩
    have hq0fp : q0 ∈ fp := by
      rw [hfp]
      refine List.mem_filter.mpr ⟨hq0, ?_⟩
      simp [hq0c, hmemne c0 hc0]
    have hfpne : fp ≠ [] := fun h => by rw [h] at hq0fp; simp at hq0fp
    have hpne : pairs ≠ [] := fun h => by rw [h] at hq0; simp at hq0
    have hdim_f : (fp.getD 0 ([], 0)).1.length = d := by
      have hlen : 0 < fp.length := List.length_pos.mpr hfpne
      have hmemfp : fp.getD 0 ([], 0) ∈ fp := by
        rw [List.getD_eq_getElem _ _ hlen]
        exact List.getElem_mem _
      have hmemp : fp.getD 0 ([], 0) ∈ pairs :=
        List.mem_of_mem_filter (p := fun p => decide (p.2 ≠ -1))
          (by rw [← hfp]; exact hmemfp)
      exact hdim _ hmemp
    have hdim_p : (pairs.getD 0 ([], 0)).1.length = d := by
      have hlen : 0 < pairs.length := List.length_pos.mpr hpne
      rw [List.getD_eq_getElem _ _ hlen]
      exact hdim _ (List.getElem_mem _)
    rw [hdim_f, hdim_p]
    have hcent : ∀ c ∈ uniq, clusterCentroid fp c d = clusterCentroid pairs c d := by
      intro c hc
      unfold clusterCentroid
      rw [hfp, clusterMembers_filter pairs c (hmemne c hc)]
    have hscat : ∀ c ∈ uniq, scatter fp c d = scatter pairs c d := by
      intro c hc
      unfold scatter
      rw [hfp, clusterMembers_filter pairs c (hmemne c hc),
        ← hfp, hcent c hc]
    congr 1
    refine congrArg List.sum ?_
    refine List.map_congr_left ?_
    intro i hi
    have hfilter : uniq.filter (fun j =>
        decide (j ≠ i) && decide (sqDist (clusterCentroid fp i d)
          (clusterCentroid fp j d) ≠ 0))
        = uniq.filter (fun j =>
        decide (j ≠ i) && decide (sqDist (clusterCentroid pairs i d)
          (clusterCentroid pairs j d) ≠ 0)) := by
      refine List.filter_congr ?_
      intro j hj
      rw [hcent i hi, hcent j hj]
    rw [hfilter]
    have hmap : (uniq.filter (fun j =>
        decide (j ≠ i) && decide (sqDist (clusterCentroid pairs i d)
          (clusterCentroid pairs j d) ≠ 0))).map
        (fun j => (scatter fp i d + scatter fp j d) /
          euclideanDistance (clusterCentroid fp i d) (clusterCentroid fp j d))
        = (uniq.filter (fun j =>
        decide (j ≠ i) && decide (sqDist (clusterCentroid pairs i d)
          (clusterCentroid pairs j d) ≠ 0))).map
        (fun j => (scatter pairs i d + scatter pairs j d) /
          euclideanDistance (clusterCentroid pairs i d)
            (clusterCentroid pairs j d)) := by
      refine List.map_congr_left ?_
      intro j hj
      have hj' : j ∈ uniq := List.mem_of_mem_filter hj
      rw [hcent i hi, hcent j hj', hscat i hi, hscat j hj']
    rw [hmap]


lemma euclid_mul_self (a b : List ℚ) :
    euclideanDistance a b * euclideanDistance a b = ((sqDist a b : ℚ) : ℝ) := by
  unfold euclideanDistance
  exact Real.mul_self_sqrt (by exact_mod_cast sqDist_nonneg a b)

set_option maxHeartbeats 2000000 in
/-- Counterexample to C4 as stated: on `[[0],[2],[10],[100]]` with labels
`[0,0,1,-1]`, removing the noise-labeled vector changes the metrics
bundle — the Calinski-Harabasz global centroid averages the noise vector
`[100]`, giving index `891` with noise present and `27` with it
removed. -/
theorem metrics_noise_counterexample :
    calculateClusteringMetrics [[(0 : ℚ)], [2], [10], [100]] [0, 0, 1, -1]
      ≠ calculateClusteringMetrics [[(0 : ℚ)], [2], [10]] [0, 0, 1] := by
  intro h
  have hCH := congrArg ClusteringMetrics.calinskiHarabaszIndex h
  have h1 : calculateCalinskiHarabaszIndex [[(0 : ℚ)], [2], [10], [100]]
      [0, 0, 1, -1] = 891 := by
    norm_num [calculateCalinskiHarabaszIndex, calinskiHarabaszCore,
      uniqueClusters, clusterMembers, clusterCentroid, divideVector,
      addVectors, sqDist, euclid_mul_self, List.dedup_cons_of_mem,
      List.dedup_cons_of_not_mem, List.dedup_nil, List.mem_cons,
      List.not_mem_nil]
  have h2 : calculateCalinskiHarabaszIndex [[(0 : ℚ)], [2], [10]]
      [0, 0, 1] = 27 := by
    norm_num [calculateCalinskiHarabaszIndex, calinskiHarabaszCore,
      uniqueClusters, clusterMembers, clusterCentroid, divideVector,
      addVectors, sqDist, euclid_mul_self, List.dedup_cons_of_mem,
      List.dedup_cons_of_not_mem, List.dedup_nil, List.mem_cons,
      List.not_mem_nil]
  have : (891 : ℝ) = 27 := by
    rw [← h1, ← h2]
    exact hCH
  norm_num at this

/-- C4 (amended): the silhouette score and the Davies-Bouldin index
exclude noise-labeled points from every statistic they compute — both
are unchanged when the noise-labeled vectors are removed from a
uniform-dimension input — while the Calinski-Harabasz index computes its
global centroid over all vectors, noise included, so the full metrics
bundle can change. -/
theorem metrics_noise_invariance (vectors : List (List ℚ)) (labels : List ℤ)
    (d : ℕ) (hd : ∀ v ∈ vectors, v.length = d) :
    (calculateClusteringMetrics
        ((vectors.zip labels).filter (fun p => decide (p.2 ≠ -1))).unzip.1
        ((vectors.zip labels).filter
          (fun p => decide (p.2 ≠ -1))).unzip.2).silhouetteScore
      = (calculateClusteringMetrics vectors labels).silhouetteScore ∧
    (calculateClusteringMetrics
        ((vectors.zip labels).filter (fun p => decide (p.2 ≠ -1))).unzip.1
        ((vectors.zip labels).filter
          (fun p => decide (p.2 ≠ -1))).unzip.2).daviesBouldinIndex
      = (calculateClusteringMetrics vectors labels).daviesBouldinIndex := by
  constructor
  · exact calculateSilhouetteScore_filter vectors labels
  · show calculateDaviesBouldinIndex _ _ = calculateDaviesBouldinIndex _ _
    unfold calculateDaviesBouldinIndex
    rw [List.zip_unzip]
    exact daviesBouldinCore_filter (vectors.zip labels) d
      (fun q hq => hd q.1 (List.of_mem_zip hq).1)

/-- Witness for the amended C4 at a concrete labeled collection with one
noise point. -/
theorem metrics_noise_invariance_witness :
    (calculateClusteringMetrics
        (([[(0 : ℚ)], [2], [10]].zip [0, 1, -1]).filter
          (fun p => decide (p.2 ≠ -1))).unzip.1
        (([[(0 : ℚ)], [2], [10]].zip [0, 1, -1]).filter
          (fun p => decide (p.2 ≠ -1))).unzip.2).silhouetteScore
      = (calculateClusteringMetrics [[(0 : ℚ)], [2], [10]]
          [0, 1, -1]).silhouetteScore ∧
    (calculateClusteringMetrics
        (([[(0 : ℚ)], [2], [10]].zip [0, 1, -1]).filter
          (fun p => decide (p.2 ≠ -1))).unzip.1
        (([[(0 : ℚ)], [2], [10]].zip [0, 1, -1]).filter
          (fun p => decide (p.2 ≠ -1))).unzip.2).daviesBouldinIndex
      = (calculateClusteringMetrics [[(0 : ℚ)], [2], [10]]
          [0, 1, -1]).daviesBouldinIndex :=
  metrics_noise_invariance [[(0 : ℚ)], [2], [10]] [0, 1, -1] 1
    (by intro v hv; simp at hv; rcases hv with rfl | rfl | rfl <;> rfl)

end Papermind
